import Mathlib

/-!
Verification of the syntax-highlighting core of the `sid-standard/website`
repository (`src/components/content/code-block.tsx`).

Strings are modelled as `List Char`.  Each anchored regular expression used by
the source is translated into an explicit matcher function returning
`Option (matched text × rest)`, and each tokenizer loop (`while remaining.length
> 0`) is translated into a step function applied through a fuel-indexed loop
whose fuel is the input length; a progress lemma shows every iteration consumes
at least one character, so this fuel is always sufficient.
-/

namespace CodeBlock

/-- Source strings, modelled as lists of characters. -/
abbrev Str := List Char

/-- The double-quote character `"` (code point 34). -/
def dquote : Char := Char.ofNat 34

/-- The single-quote character (code point 39). -/
def squote : Char := Char.ofNat 39

/-- The backquote character (code point 96). -/
def btick : Char := Char.ofNat 96

/-- The regex class `\d`, i.e. the ASCII digits `0`-`9`. -/
def isDigit (c : Char) : Bool := decide (48 ≤ c.toNat ∧ c.toNat ≤ 57)

/-- The regex class `[0-9a-fA-F]` used by hexadecimal literals. -/
def isHexDigit (c : Char) : Bool :=
  isDigit c || decide (97 ≤ c.toNat ∧ c.toNat ≤ 102) || decide (65 ≤ c.toNat ∧ c.toNat ≤ 70)

/-- The regex class `[01]` used by binary literals. -/
def isBinDigit (c : Char) : Bool := decide (c.toNat = 48 ∨ c.toNat = 49)

/-- The regex class `[0-7]` used by octal literals. -/
def isOctDigit (c : Char) : Bool := decide (48 ≤ c.toNat ∧ c.toNat ≤ 55)

/-- The regex class `[a-zA-Z]`. -/
def isAsciiAlpha (c : Char) : Bool :=
  decide (97 ≤ c.toNat ∧ c.toNat ≤ 122) || decide (65 ≤ c.toNat ∧ c.toNat ≤ 90)

/-- The regex class `[a-zA-Z_$]` starting a JS identifier. -/
def isIdentStart (c : Char) : Bool := isAsciiAlpha c || decide (c.toNat = 95 ∨ c.toNat = 36)

/-- The regex class `[a-zA-Z0-9_$]` continuing a JS identifier. -/
def isIdentChar (c : Char) : Bool := isIdentStart c || isDigit c

/-- The JavaScript regex class `\s` (also the character set removed by
`String.prototype.trimStart`): ASCII whitespace, NBSP, BOM, the Unicode
space separators and the line separators. -/
def isJsSpace (c : Char) : Bool :=
  decide (c.toNat = 32 ∨ c.toNat = 9 ∨ c.toNat = 10 ∨ c.toNat = 13 ∨ c.toNat = 11 ∨
    c.toNat = 12 ∨ c.toNat = 160 ∨ c.toNat = 5760 ∨ (8192 ≤ c.toNat ∧ c.toNat ≤ 8202) ∨
    c.toNat = 8232 ∨ c.toNat = 8233 ∨ c.toNat = 8239 ∨ c.toNat = 8287 ∨
    c.toNat = 12288 ∨ c.toNat = 65279)

/-- The JavaScript line terminators, which the regex `.` does not match. -/
def isLineTerm (c : Char) : Bool :=
  decide (c.toNat = 10 ∨ c.toNat = 13 ∨ c.toNat = 8232 ∨ c.toNat = 8233)

/-- Token types for syntax highlighting (`TokenType` in the source; the
source's `"attribute"` member is named `attr` here because `attribute` is a
reserved word in Lean). -/
inductive TokenType where
  | keyword
  | string
  | number
  | comment
  | punctuation
  | operator
  | property
  | tag
  | attr
  | plain
  deriving DecidableEq

/-- A token: a piece of code with its type for styling (`Token` in the
source; the source's `content` field name is kept). -/
structure Token where
  type : TokenType
  content : Str
  deriving DecidableEq

/-- `startsWith p s` holds when the pattern `p` is a prefix of `s`
(JavaScript `String.prototype.startsWith`). -/
def startsWith : Str → Str → Bool
  | [], _ => true
  | _ :: _, [] => false
  | p :: ps, c :: cs => p == c && startsWith ps cs

/-! ## Matchers for the JS lexer's anchored regular expressions -/

/-- The regex `^\/\/[^\n]*` (single-line comment). -/
def matchLineComment (s : Str) : Option (Str × Str) :=
  match s with
  | c :: d :: rest =>
    if c = '/' ∧ d = '/' then
      some (c :: d :: rest.takeWhile (fun x => x != '\n'), rest.dropWhile (fun x => x != '\n'))
    else none
  | _ => none

/-- Splits its argument at the first occurrence of `*/`: returns the part
before it and the part after it.  Implements the lazy quantifier in the
block-comment regex. -/
def splitAtCloseComment : Str → Option (Str × Str)
  | c :: d :: rest =>
    if c = '*' ∧ d = '/' then some ([], rest)
    else (splitAtCloseComment (d :: rest)).map (fun p => (c :: p.1, p.2))
  | _ => none

/-- The regex `^\/\*[\s\S]*?\*\//` (block comment, lazy up to the first `*/`). -/
def matchBlockComment (s : Str) : Option (Str × Str) :=
  match s with
  | c :: d :: rest =>
    if c = '/' ∧ d = '*' then
      (splitAtCloseComment rest).map (fun p => (c :: d :: (p.1 ++ ['*', '/']), p.2))
    else none
  | _ => none

/-- Scans the body of a quoted string with backslash escapes, i.e. the
`(?:[^q\\]|\\.)*q` part of the string regexes (where `.` does not match a
line terminator); returns the body including the closing quote, and the rest. -/
def scanStringBody (q : Char) : Str → Option (Str × Str)
  | [] => none
  | [c] => if c = q then some ([c], []) else none
  | c :: d :: rest =>
    if c = q then some ([c], d :: rest)
    else if c.toNat = 92 then
      if isLineTerm d then none
      else (scanStringBody q rest).map (fun p => (c :: d :: p.1, p.2))
    else (scanStringBody q (d :: rest)).map (fun p => (c :: p.1, p.2))

/-- The regexes `^"(?:[^"\\]|\\.)*"`, `^'(?:[^'\\]|\\.)*'` and the backquote
analogue, parameterised by the delimiter `q`. -/
def matchString (q : Char) (s : Str) : Option (Str × Str) :=
  match s with
  | c :: rest =>
    if c = q then (scanStringBody q rest).map (fun p => (c :: p.1, p.2)) else none
  | [] => none

/-- The regexes `^0x[0-9a-fA-F]+`, `^0b[01]+`, `^0o[0-7]+`, parameterised by
the tag letter and digit class. -/
def matchRadix (tag : Char) (digit : Char → Bool) (s : Str) : Option (Str × Str) :=
  match s with
  | a :: c :: rest =>
    if a = '0' ∧ c = tag then
      let ds := rest.takeWhile digit
      if ds.isEmpty then none else some (a :: c :: ds, rest.dropWhile digit)
    else none
  | _ => none

/-- The optional exponent part `(?:[eE][+-]?\d+)?` of the number regexes;
total: returns the matched part (possibly empty) and the rest. -/
def matchExponent (s : Str) : Str × Str :=
  match s with
  | e :: rest =>
    if e = 'e' ∨ e = 'E' then
      let signAndRest : Str × Str :=
        match rest with
        | c :: r2 => if c = '+' ∨ c = '-' then ([c], r2) else ([], rest)
        | [] => ([], rest)
      let ds := signAndRest.2.takeWhile isDigit
      if ds.isEmpty then ([], s)
      else (e :: (signAndRest.1 ++ ds), signAndRest.2.dropWhile isDigit)
    else ([], s)
  | [] => ([], [])

/-- The regex `^\d+\.?\d*(?:[eE][+-]?\d+)?` (decimal literal). -/
def matchDecimal (s : Str) : Option (Str × Str) :=
  let ds := s.takeWhile isDigit
  if ds.isEmpty then none
  else
    let r1 := s.dropWhile isDigit
    let fracAndRest : Str × Str :=
      match r1 with
      | c :: r => if c = '.' then (c :: r.takeWhile isDigit, r.dropWhile isDigit) else ([], r1)
      | [] => ([], r1)
    let er := matchExponent fracAndRest.2
    some (ds ++ fracAndRest.1 ++ er.1, er.2)

/-- The multi-character operator alternatives of the operator regex, in the
source's alternation order. -/
def jsMultiOps : List Str :=
  [['=', '=', '='], ['!', '=', '='], ['=', '='], ['!', '='], ['<', '='], ['>', '='],
   ['&', '&'], ['|', '|'], ['=', '>'], ['.', '.', '.'], ['?', '?'], ['?', '.'],
   ['+', '+'], ['-', '-']]

/-- The single-character operator class `[+\-*/%<>&|^!~=?:]`. -/
def jsSingleOps : Str := "+-*/%<>&|^!~=?:".toList

/-- The operator regex: first multi-character alternative that matches, else
a single character of the operator class. -/
def matchOps (s : Str) : Option (Str × Str) :=
  match jsMultiOps.find? (fun op => startsWith op s) with
  | some op => some (op, s.drop op.length)
  | none =>
    match s with
    | c :: rest => if jsSingleOps.contains c then some ([c], rest) else none
    | [] => none

/-- A regex consisting of a single character class, such as the punctuation
regex `^[{}[\]();,.]`. -/
def matchCharOf (cls : Str) (s : Str) : Option (Str × Str) :=
  match s with
  | c :: rest => if cls.contains c then some ([c], rest) else none
  | [] => none

/-- The punctuation class of the JS lexer. -/
def jsPunctChars : Str := "\x7b\x7d[]();,.".toList

/-- The regex `^[a-zA-Z_$][a-zA-Z0-9_$]*` (identifier). -/
def matchIdent (s : Str) : Option (Str × Str) :=
  match s with
  | c :: rest =>
    if isIdentStart c then
      some (c :: rest.takeWhile isIdentChar, rest.dropWhile isIdentChar)
    else none
  | [] => none

/-- The regex `^\s+` (whitespace run). -/
def matchWhitespace (s : Str) : Option (Str × Str) :=
  let ws := s.takeWhile isJsSpace
  if ws.isEmpty then none else some (ws, s.dropWhile isJsSpace)

/-- The fixed keyword set of the JS lexer (`keywords` in `tokenizeJS`). -/
def keywords : List Str :=
  (["const", "let", "var", "function", "return", "if", "else", "for", "while",
    "do", "switch", "case", "break", "continue", "default", "try", "catch",
    "finally", "throw", "new", "class", "extends", "implements", "interface",
    "type", "enum", "import", "export", "from", "as", "async", "await",
    "yield", "static", "public", "private", "protected", "readonly",
    "abstract", "true", "false", "null", "undefined", "void", "never", "any",
    "unknown", "string", "number", "boolean", "object", "symbol", "bigint",
    "this", "super", "typeof", "instanceof", "in", "of", "delete",
    "declare"] : List String).map String.toList

/-- The post-match classification of `tokenizeJS`: a `plain` match whose text
is in the keyword set becomes a `keyword`. -/
def jsClassify (ty : TokenType) (m : Str) : TokenType :=
  if ty = TokenType.plain ∧ keywords.contains m = true then TokenType.keyword else ty

/-- One iteration of the `tokenizeJS` loop: try the ordered pattern list,
first match wins; if no pattern matches, consume one character as `plain`.
(The `([], [])` result is only reached on empty input, where the loop never
runs.) -/
def jsStep (s : Str) : Token × Str :=
  match matchLineComment s with
  | some (m, r) => (⟨jsClassify .comment m, m⟩, r)
  | none =>
    match matchBlockComment s with
    | some (m, r) => (⟨jsClassify .comment m, m⟩, r)
    | none =>
      match matchString dquote s with
      | some (m, r) => (⟨jsClassify .string m, m⟩, r)
      | none =>
        match matchString squote s with
        | some (m, r) => (⟨jsClassify .string m, m⟩, r)
        | none =>
          match matchString btick s with
          | some (m, r) => (⟨jsClassify .string m, m⟩, r)
          | none =>
            match matchRadix 'x' isHexDigit s with
            | some (m, r) => (⟨jsClassify .number m, m⟩, r)
            | none =>
              match matchRadix 'b' isBinDigit s with
              | some (m, r) => (⟨jsClassify .number m, m⟩, r)
              | none =>
                match matchRadix 'o' isOctDigit s with
                | some (m, r) => (⟨jsClassify .number m, m⟩, r)
                | none =>
                  match matchDecimal s with
                  | some (m, r) => (⟨jsClassify .number m, m⟩, r)
                  | none =>
                    match matchOps s with
                    | some (m, r) => (⟨jsClassify .operator m, m⟩, r)
                    | none =>
                      match matchCharOf jsPunctChars s with
                      | some (m, r) => (⟨jsClassify .punctuation m, m⟩, r)
                      | none =>
                        match matchIdent s with
                        | some (m, r) => (⟨jsClassify .plain m, m⟩, r)
                        | none =>
                          match matchWhitespace s with
                          | some (m, r) => (⟨jsClassify .plain m, m⟩, r)
                          | none =>
                            match s with
                            | c :: rest => (⟨.plain, [c]⟩, rest)
                            | [] => (⟨.plain, []⟩, [])

/-- The `tokenizeJS` loop, with explicit fuel (each iteration consumes at
least one character, so fuel `s.length` is always enough). -/
def tokenizeJSAux : Nat → Str → List Token
  | 0, _ => []
  | _ + 1, [] => []
  | fuel + 1, c :: rest =>
    let p := jsStep (c :: rest)
    p.1 :: tokenizeJSAux fuel p.2

/-- `tokenizeJS` from the source: tokenize TypeScript/JavaScript code. -/
def tokenizeJS (s : Str) : List Token := tokenizeJSAux s.length s

/-! ## Matchers for the HTML lexer -/

/-- Splits its argument at the first occurrence of `-->`. -/
def splitAtCloseHtmlComment : Str → Option (Str × Str)
  | a :: b :: c :: rest =>
    if a = '-' ∧ b = '-' ∧ c = '>' then some ([], rest)
    else (splitAtCloseHtmlComment (b :: c :: rest)).map (fun p => (a :: p.1, p.2))
  | _ => none

/-- The regex `^<!--[\s\S]*?-->` (HTML comment). -/
def matchHtmlComment (s : Str) : Option (Str × Str) :=
  match s with
  | a :: b :: c :: d :: rest =>
    if a = '<' ∧ b = '!' ∧ c = '-' ∧ d = '-' then
      (splitAtCloseHtmlComment rest).map
        (fun p => (a :: b :: c :: d :: (p.1 ++ ['-', '-', '>']), p.2))
    else none
  | _ => none

/-- The regex `^<!DOCTYPE[^>]*>` with the case-insensitive flag. -/
def matchDoctype (s : Str) : Option (Str × Str) :=
  match s with
  | a :: b :: c1 :: c2 :: c3 :: c4 :: c5 :: c6 :: c7 :: rest =>
    if a = '<' ∧ b = '!' ∧ (c1 = 'D' ∨ c1 = 'd') ∧ (c2 = 'O' ∨ c2 = 'o') ∧
        (c3 = 'C' ∨ c3 = 'c') ∧ (c4 = 'T' ∨ c4 = 't') ∧ (c5 = 'Y' ∨ c5 = 'y') ∧
        (c6 = 'P' ∨ c6 = 'p') ∧ (c7 = 'E' ∨ c7 = 'e') then
      match rest.dropWhile (fun x => x != '>') with
      | g :: r2 =>
        some (a :: b :: c1 :: c2 :: c3 :: c4 :: c5 :: c6 :: c7 ::
          (rest.takeWhile (fun x => x != '>') ++ [g]), r2)
      | [] => none
    else none
  | _ => none

/-- The class `[a-zA-Z0-9-]` continuing a tag name. -/
def isTagChar (c : Char) : Bool := isAsciiAlpha c || isDigit c || decide (c = '-')

/-- The class `[a-zA-Z0-9-:]` continuing an attribute name. -/
def isAttrChar (c : Char) : Bool := isTagChar c || decide (c = ':')

/-- The regex `^<\/?([a-zA-Z][a-zA-Z0-9-]*)`: returns the punctuation text
(`<` or `</`), the tag name, and the rest. -/
def matchTag (s : Str) : Option (Str × Str × Str) :=
  match s with
  | a :: b :: rest =>
    if a = '<' then
      if b = '/' then
        match rest with
        | c :: rest2 =>
          if isAsciiAlpha c then
            some ([a, b], c :: rest2.takeWhile isTagChar, rest2.dropWhile isTagChar)
          else none
        | [] => none
      else if isAsciiAlpha b then
        some ([a], b :: rest.takeWhile isTagChar, rest.dropWhile isTagChar)
      else none
    else none
  | _ => none

/-- The regex `^([a-zA-Z][a-zA-Z0-9-:]*)\s*=`: returns the attribute name,
the (consumed but not emitted) whitespace, and the rest after the `=`. -/
def matchAttrName (s : Str) : Option (Str × Str × Str) :=
  match s with
  | c :: rest =>
    if isAsciiAlpha c then
      let r1 := rest.dropWhile isAttrChar
      match r1.dropWhile isJsSpace with
      | e :: r2 =>
        if e = '=' then
          some (c :: rest.takeWhile isAttrChar, r1.takeWhile isJsSpace, r2)
        else none
      | [] => none
    else none
  | [] => none

/-- The regexes `^"[^"]*"` and `^'[^']*'` (attribute values, no escapes). -/
def matchHtmlString (q : Char) (s : Str) : Option (Str × Str) :=
  match s with
  | c :: rest =>
    if c = q then
      match rest.dropWhile (fun x => x != q) with
      | g :: r2 => some (c :: (rest.takeWhile (fun x => x != q) ++ [g]), r2)
      | [] => none
    else none
  | [] => none

/-- The regex `^\/?>` (closing bracket `>` or `/>`). -/
def matchCloseBracket (s : Str) : Option (Str × Str) :=
  match s with
  | a :: rest =>
    if a = '/' then
      match rest with
      | b :: r2 => if b = '>' then some ([a, b], r2) else none
      | [] => none
    else if a = '>' then some ([a], rest)
    else none
  | [] => none

/-- One iteration of the `tokenizeHTML` loop: ordered handlers, first match
wins; the fallback emits the text up to the next `<` as one plain token (the
whole rest if there is none), or a single character when the cursor already
sits on a `<` that no structural pattern recognised. -/
def htmlStep (s : Str) : List Token × Str :=
  match matchHtmlComment s with
  | some (m, r) => ([⟨.comment, m⟩], r)
  | none =>
    match matchDoctype s with
    | some (m, r) => ([⟨.keyword, m⟩], r)
    | none =>
      match matchTag s with
      | some (pn, name, r) => ([⟨.punctuation, pn⟩, ⟨.tag, name⟩], r)
      | none =>
        match matchAttrName s with
        | some (name, _ws, r) => ([⟨.attr, name⟩, ⟨.operator, ['=']⟩], r)
        | none =>
          match matchHtmlString dquote s with
          | some (m, r) => ([⟨.string, m⟩], r)
          | none =>
            match matchHtmlString squote s with
            | some (m, r) => ([⟨.string, m⟩], r)
            | none =>
              match matchCloseBracket s with
              | some (m, r) => ([⟨.punctuation, m⟩], r)
              | none =>
                match matchWhitespace s with
                | some (m, r) => ([⟨.plain, m⟩], r)
                | none =>
                  match s.takeWhile (fun x => x != '<') with
                  | [] =>
                    match s with
                    | c :: rest => ([⟨.plain, [c]⟩], rest)
                    | [] => ([], [])
                  | p :: pre => ([⟨.plain, p :: pre⟩], s.dropWhile (fun x => x != '<'))

/-- The `tokenizeHTML` loop, with explicit fuel. -/
def tokenizeHTMLAux : Nat → Str → List Token
  | 0, _ => []
  | _ + 1, [] => []
  | fuel + 1, c :: rest =>
    let p := htmlStep (c :: rest)
    p.1 ++ tokenizeHTMLAux fuel p.2

/-- `tokenizeHTML` from the source: tokenize HTML code. -/
def tokenizeHTML (s : Str) : List Token := tokenizeHTMLAux s.length s

/-! ## Matchers for the JSON lexer -/

/-- The regex `^-?\d+\.?\d*(?:[eE][+-]?\d+)?` (JSON number). -/
def matchJsonNumber (s : Str) : Option (Str × Str) :=
  match s with
  | c :: rest =>
    if c = '-' then (matchDecimal rest).map (fun p => (c :: p.1, p.2))
    else matchDecimal s
  | [] => none

/-- The keyword alternatives of the regex `^(?:true|false|null)`. -/
def jsonKeywords : List Str :=
  [['t', 'r', 'u', 'e'], ['f', 'a', 'l', 's', 'e'], ['n', 'u', 'l', 'l']]

/-- The regex `^(?:true|false|null)`. -/
def matchJsonKeyword (s : Str) : Option (Str × Str) :=
  match jsonKeywords.find? (fun k => startsWith k s) with
  | some k => some (k, s.drop k.length)
  | none => none

/-- The JSON punctuation class `[{}[\]:,]`. -/
def jsonPunctChars : Str := "\x7b\x7d[]:,".toList

/-- One iteration of the `tokenizeJSON` loop.  The extra state is the
`lastWasColon` flag; a double-quoted string is reclassified as `property`
when the flag is false and the next non-whitespace character is `:`.  Every
pattern match sets the flag to whether the matched text is exactly `:`; the
single-character fallback leaves the flag unchanged (as in the source). -/
def jsonStep (s : Str) (lastWasColon : Bool) : Token × Bool × Str :=
  match matchString dquote s with
  | some (m, r) =>
    let ty :=
      if lastWasColon = false ∧ startsWith [':'] (r.dropWhile isJsSpace) = true then
        TokenType.property
      else TokenType.string
    (⟨ty, m⟩, decide (m = [':']), r)
  | none =>
    match matchJsonNumber s with
    | some (m, r) => (⟨.number, m⟩, decide (m = [':']), r)
    | none =>
      match matchJsonKeyword s with
      | some (m, r) => (⟨.keyword, m⟩, decide (m = [':']), r)
      | none =>
        match matchCharOf jsonPunctChars s with
        | some (m, r) => (⟨.punctuation, m⟩, decide (m = [':']), r)
        | none =>
          match matchWhitespace s with
          | some (m, r) => (⟨.plain, m⟩, decide (m = [':']), r)
          | none =>
            match s with
            | c :: rest => (⟨.plain, [c]⟩, lastWasColon, rest)
            | [] => (⟨.plain, []⟩, lastWasColon, [])

/-- The `tokenizeJSON` loop, with explicit fuel and the threaded flag. -/
def tokenizeJSONAux : Nat → Str → Bool → List Token
  | 0, _, _ => []
  | _ + 1, [], _ => []
  | fuel + 1, c :: rest, flag =>
    let p := jsonStep (c :: rest) flag
    p.1 :: tokenizeJSONAux fuel p.2.2 p.2.1

/-- `tokenizeJSON` from the source: tokenize JSON code (flag starts false). -/
def tokenizeJSON (s : Str) : List Token := tokenizeJSONAux s.length s false

/-! ## Dispatcher -/

/-- The recognised language tags of the `tokenize` dispatcher. -/
def supportedLanguages : List Str :=
  (["typescript", "javascript", "html", "json"] : List String).map String.toList

/-- `tokenize` from the source: dispatch on the language tag; any other tag
yields the whole source as a single plain token. -/
def tokenize (code lang : Str) : List Token :=
  if lang = "typescript".toList ∨ lang = "javascript".toList then tokenizeJS code
  else if lang = "html".toList then tokenizeHTML code
  else if lang = "json".toList then tokenizeJSON code
  else [⟨.plain, code⟩]

/-! ## Line segmentation -/

/-- Concatenation of the texts of a token list, in order. -/
def joinTexts (ts : List Token) : Str := (ts.map Token.content).flatten

/-- JavaScript `content.split("\n")`: a string with `k` newlines yields
`k + 1` parts. -/
def splitNL : Str → List Str
  | [] => [[]]
  | c :: rest =>
    if c = '\n' then [] :: splitNL rest
    else
      match splitNL rest with
      | [] => [[c]]
      | p :: ps => (c :: p) :: ps

/-- A fragment of a token for one line: empty parts are skipped (the
source's `if (parts[i])`), non-empty parts keep the original token type. -/
def frag (ty : TokenType) (p : Str) : List Token :=
  if p.isEmpty then [] else [⟨ty, p⟩]

/-- The per-line fragments a single token contributes. -/
def tokenLines (ty : TokenType) (s : Str) : List (List Token) :=
  (splitNL s).map (frag ty)

/-- Appends the line groups of one token in front of the line groups of the
following tokens: the last group of the first argument continues the first
group of the second (no newline between them). -/
def mergeLines : List (List Token) → List (List Token) → List (List Token)
  | [], hs => hs
  | [g], h :: hs => (g ++ h) :: hs
  | [g], [] => [g]
  | g :: g2 :: gs, hs => g :: mergeLines (g2 :: gs) hs

/-- The line-splitting step of the `CodeBlock` component: split the token
stream into per-line token groups (the `lines` memo in the source). -/
def toLines : List Token → List (List Token)
  | [] => [[]]
  | t :: ts => mergeLines (tokenLines t.type t.content) (toLines ts)

/-- Joining line texts with a newline between consecutive lines. -/
def joinNL : List Str → Str
  | [] => []
  | [l] => l
  | l :: ls => l ++ '\n' :: joinNL ls

/-- `hasWsEq s` holds when somewhere in `s` a whitespace character is
immediately followed by `=` (exactly the situation in which the HTML
attribute-name rule consumes whitespace it does not re-emit). -/
def hasWsEq : Str → Bool
  | a :: b :: rest => (isJsSpace a && b == '=') || hasWsEq (b :: rest)
  | _ => false

/-! ## Soundness of the individual matchers

For each matcher we prove: a successful match splits the input into the
matched text and the rest, and the matched text is non-empty. -/

theorem startsWith_sound : ∀ (p s : Str), startsWith p s = true → p ++ s.drop p.length = s := by
  intro p
  induction p with
  | nil => intro s _; simp
  | cons c cs ih =>
    intro s h
    cases s with
    | nil => simp [startsWith] at h
    | cons a as =>
      simp only [startsWith, Bool.and_eq_true, beq_iff_eq] at h
      obtain ⟨rfl, h2⟩ := h
      simpa using ih as h2

theorem matchLineComment_sound {s m r : Str} (h : matchLineComment s = some (m, r)) :
    m ++ r = s ∧ m ≠ [] := by
  match s with
  | [] => simp [matchLineComment] at h
  | [c] => simp [matchLineComment] at h
  | c :: d :: rest =>
    simp only [matchLineComment] at h
    split at h
    · simp only [Option.some.injEq, Prod.mk.injEq] at h
      obtain ⟨rfl, rfl⟩ := h
      refine ⟨?_, by simp⟩
      simp [List.takeWhile_append_dropWhile]
    · exact absurd h (by simp)

theorem splitAtCloseComment_sound :
    ∀ (s : Str) {a b : Str}, splitAtCloseComment s = some (a, b) → a ++ '*' :: '/' :: b = s
  | [], _, _, h => by simp [splitAtCloseComment] at h
  | [c], _, _, h => by simp [splitAtCloseComment] at h
  | c :: d :: rest, a, b, h => by
    rw [splitAtCloseComment] at h
    split at h
    · rename_i hcd
      obtain ⟨rfl, rfl⟩ := hcd
      simp only [Option.some.injEq, Prod.mk.injEq] at h
      obtain ⟨rfl, rfl⟩ := h
      simp
    · cases hrec : splitAtCloseComment (d :: rest) with
      | none => rw [hrec] at h; simp at h
      | some p =>
        rw [hrec] at h
        simp only [Option.map_some', Option.some.injEq, Prod.mk.injEq] at h
        obtain ⟨rfl, rfl⟩ := h
        have := splitAtCloseComment_sound (d :: rest) hrec
        rw [List.cons_append, this]

theorem matchBlockComment_sound {s m r : Str} (h : matchBlockComment s = some (m, r)) :
    m ++ r = s ∧ m ≠ [] := by
  match s with
  | [] => simp [matchBlockComment] at h
  | [c] => simp [matchBlockComment] at h
  | c :: d :: rest =>
    simp only [matchBlockComment] at h
    split at h
    · rename_i hcd
      cases hrec : splitAtCloseComment rest with
      | none => rw [hrec] at h; simp at h
      | some p =>
        rw [hrec] at h
        simp only [Option.map_some', Option.some.injEq, Prod.mk.injEq] at h
        obtain ⟨rfl, rfl⟩ := h
        have := splitAtCloseComment_sound (s := rest) (a := p.1) (b := p.2) (by rw [hrec])
        refine ⟨?_, by simp⟩
        simp only [List.cons_append, List.append_assoc, List.cons_append, List.nil_append]
        rw [← this]
    · exact absurd h (by simp)

theorem scanStringBody_sound (q : Char) :
    ∀ (s : Str) {m r : Str}, scanStringBody q s = some (m, r) → m ++ r = s ∧ m ≠ []
  | [], _, _, h => by simp [scanStringBody] at h
  | [c], m, r, h => by
    rw [scanStringBody] at h
    split at h
    · simp only [Option.some.injEq, Prod.mk.injEq] at h
      obtain ⟨rfl, rfl⟩ := h
      simp
    · simp at h
  | c :: d :: rest, m, r, h => by
    rw [scanStringBody] at h
    split at h
    · simp only [Option.some.injEq, Prod.mk.injEq] at h
      obtain ⟨rfl, rfl⟩ := h
      simp
    · split at h
      · split at h
        · simp at h
        · cases hrec : scanStringBody q rest with
          | none => rw [hrec] at h; simp at h
          | some p =>
            rw [hrec] at h
            simp only [Option.map_some', Option.some.injEq, Prod.mk.injEq] at h
            obtain ⟨rfl, rfl⟩ := h
            have := scanStringBody_sound q rest hrec
            refine ⟨?_, by simp⟩
            simp only [List.cons_append]
            rw [this.1]
      · cases hrec : scanStringBody q (d :: rest) with
        | none => rw [hrec] at h; simp at h
        | some p =>
          rw [hrec] at h
          simp only [Option.map_some', Option.some.injEq, Prod.mk.injEq] at h
          obtain ⟨rfl, rfl⟩ := h
          have := scanStringBody_sound q (d :: rest) hrec
          refine ⟨?_, by simp⟩
          simp only [List.cons_append]
          rw [this.1]

theorem matchString_sound {q : Char} {s m r : Str} (h : matchString q s = some (m, r)) :
    m ++ r = s ∧ m ≠ [] := by
  match s with
  | [] => simp [matchString] at h
  | c :: rest =>
    simp only [matchString] at h
    split at h
    · rename_i hq
      cases hrec : scanStringBody q rest with
      | none => rw [hrec] at h; simp at h
      | some p =>
        rw [hrec] at h
        simp only [Option.map_some', Option.some.injEq, Prod.mk.injEq] at h
        obtain ⟨rfl, rfl⟩ := h
        have := scanStringBody_sound q rest hrec
        refine ⟨?_, by simp⟩
        simp only [List.cons_append]
        rw [this.1]
    · exact absurd h (by simp)

theorem matchRadix_sound {tag : Char} {digit : Char → Bool} {s m r : Str}
    (h : matchRadix tag digit s = some (m, r)) : m ++ r = s ∧ m ≠ [] := by
  match s with
  | [] => simp [matchRadix] at h
  | [a] => simp [matchRadix] at h
  | a :: c :: rest =>
    simp only [matchRadix] at h
    split at h
    · split at h
      · exact absurd h (by simp)
      · simp only [Option.some.injEq, Prod.mk.injEq] at h
        obtain ⟨rfl, rfl⟩ := h
        refine ⟨?_, by simp⟩
        simp [List.takeWhile_append_dropWhile]
    · exact absurd h (by simp)

theorem matchExponent_sound (s : Str) : (matchExponent s).1 ++ (matchExponent s).2 = s := by
  match s with
  | [] => simp [matchExponent]
  | e :: rest =>
    simp only [matchExponent]
    split
    · rename_i he
      match rest with
      | [] => simp
      | c :: r2 =>
        simp only
        split
        · rename_i hc
          split
          · simp
          · simp [List.takeWhile_append_dropWhile]
        · rename_i hc
          split
          · simp
          · simp [List.takeWhile_append_dropWhile]
    · simp

theorem matchDecimal_sound {s m r : Str} (h : matchDecimal s = some (m, r)) :
    m ++ r = s ∧ m ≠ [] := by
  simp only [matchDecimal] at h
  split at h
  · exact absurd h (by simp)
  · rename_i hds
    simp only [Option.some.injEq, Prod.mk.injEq] at h
    obtain ⟨rfl, rfl⟩ := h
    have hs : s.takeWhile isDigit ++ s.dropWhile isDigit = s :=
      List.takeWhile_append_dropWhile _ _
    constructor
    · cases hr1 : s.dropWhile isDigit with
      | nil =>
        rw [hr1] at hs
        simp only [hr1, List.append_assoc]
        rw [matchExponent_sound]
        simpa using hs
      | cons c r =>
        rw [hr1] at hs
        simp only [hr1]
        split
        · rename_i hc
          subst hc
          simp only [List.append_assoc, List.cons_append]
          rw [matchExponent_sound, List.takeWhile_append_dropWhile]
          exact hs
        · simp only [List.append_assoc, List.nil_append]
          rw [matchExponent_sound]
          exact hs
    · intro hm
      rw [List.append_assoc, List.append_eq_nil] at hm
      exact hds (by simp [List.isEmpty_iff, hm.1])

theorem jsMultiOps_ne_nil : ∀ op ∈ jsMultiOps, op ≠ [] := by decide

theorem matchOps_sound {s m r : Str} (h : matchOps s = some (m, r)) :
    m ++ r = s ∧ m ≠ [] := by
  simp only [matchOps] at h
  cases hf : jsMultiOps.find? (fun op => startsWith op s) with
  | some op =>
    rw [hf] at h
    simp only [Option.some.injEq, Prod.mk.injEq] at h
    obtain ⟨rfl, rfl⟩ := h
    have hp : startsWith op s = true := by
      have := List.find?_some hf
      simpa using this
    exact ⟨startsWith_sound op s hp, jsMultiOps_ne_nil op (List.mem_of_find?_eq_some hf)⟩
  | none =>
    rw [hf] at h
    match s with
    | [] => simp at h
    | c :: rest =>
      simp only at h
      split at h
      · simp only [Option.some.injEq, Prod.mk.injEq] at h
        obtain ⟨rfl, rfl⟩ := h
        simp
      · exact absurd h (by simp)

theorem matchCharOf_sound {cls s m r : Str} (h : matchCharOf cls s = some (m, r)) :
    m ++ r = s ∧ m ≠ [] := by
  match s with
  | [] => simp [matchCharOf] at h
  | c :: rest =>
    simp only [matchCharOf] at h
    split at h
    · simp only [Option.some.injEq, Prod.mk.injEq] at h
      obtain ⟨rfl, rfl⟩ := h
      simp
    · exact absurd h (by simp)

theorem matchIdent_sound {s m r : Str} (h : matchIdent s = some (m, r)) :
    m ++ r = s ∧ m ≠ [] := by
  match s with
  | [] => simp [matchIdent] at h
  | c :: rest =>
    simp only [matchIdent] at h
    split at h
    · simp only [Option.some.injEq, Prod.mk.injEq] at h
      obtain ⟨rfl, rfl⟩ := h
      refine ⟨?_, by simp⟩
      simp [List.takeWhile_append_dropWhile]
    · exact absurd h (by simp)

theorem matchWhitespace_sound {s m r : Str} (h : matchWhitespace s = some (m, r)) :
    m ++ r = s ∧ m ≠ [] := by
  simp only [matchWhitespace] at h
  split at h
  · exact absurd h (by simp)
  · rename_i hws
    simp only [Option.some.injEq, Prod.mk.injEq] at h
    obtain ⟨rfl, rfl⟩ := h
    refine ⟨List.takeWhile_append_dropWhile _ _, ?_⟩
    intro hm
    exact hws (by simpa [List.isEmpty_iff] using hm)

/-! ## The JS lexer: soundness of one step, progress, fuel stability,
losslessness, non-empty tokens -/

theorem joinTexts_nil : joinTexts [] = [] := rfl

theorem joinTexts_cons (t : Token) (ts : List Token) :
    joinTexts (t :: ts) = t.content ++ joinTexts ts := by
  simp [joinTexts]

theorem jsStep_sound (s : Str) (h : s ≠ []) :
    (jsStep s).1.content ++ (jsStep s).2 = s ∧ (jsStep s).1.content ≠ [] := by
  cases s with
  | nil => exact absurd rfl h
  | cons c t =>
    unfold jsStep
    split
    · rename_i m r heq; simpa using matchLineComment_sound heq
    split
    · rename_i m r heq; simpa using matchBlockComment_sound heq
    split
    · rename_i m r heq; simpa using matchString_sound heq
    split
    · rename_i m r heq; simpa using matchString_sound heq
    split
    · rename_i m r heq; simpa using matchString_sound heq
    split
    · rename_i m r heq; simpa using matchRadix_sound heq
    split
    · rename_i m r heq; simpa using matchRadix_sound heq
    split
    · rename_i m r heq; simpa using matchRadix_sound heq
    split
    · rename_i m r heq; simpa using matchDecimal_sound heq
    split
    · rename_i m r heq; simpa using matchOps_sound heq
    split
    · rename_i m r heq; simpa using matchCharOf_sound heq
    split
    · rename_i m r heq; simpa using matchIdent_sound heq
    split
    · rename_i m r heq; simpa using matchWhitespace_sound heq
    simp

theorem jsStep_progress (s : Str) (h : s ≠ []) : (jsStep s).2.length < s.length := by
  obtain ⟨h1, h2⟩ := jsStep_sound s h
  have hlen := congrArg List.length h1
  simp only [List.length_append] at hlen
  have h3 : 0 < (jsStep s).1.content.length := List.length_pos.mpr h2
  omega

theorem tokenizeJSAux_join :
    ∀ (fuel : Nat) (s : Str), s.length ≤ fuel → joinTexts (tokenizeJSAux fuel s) = s := by
  intro fuel
  induction fuel with
  | zero =>
    intro s hs
    have : s = [] := List.eq_nil_of_length_eq_zero (Nat.le_zero.mp hs)
    subst this
    simp [tokenizeJSAux, joinTexts]
  | succ f ih =>
    intro s hs
    cases s with
    | nil => simp [tokenizeJSAux, joinTexts]
    | cons c t =>
      have hsound := jsStep_sound (c :: t) (by simp)
      have hprog := jsStep_progress (c :: t) (by simp)
      simp only [tokenizeJSAux]
      rw [joinTexts_cons, ih _ (by simp only [List.length_cons] at hs hprog ⊢; omega)]
      exact hsound.1

theorem tokenizeJS_join (s : Str) : joinTexts (tokenizeJS s) = s :=
  tokenizeJSAux_join s.length s le_rfl

theorem tokenizeJSAux_nonempty :
    ∀ (fuel : Nat) (s : Str) (t : Token), t ∈ tokenizeJSAux fuel s → t.content ≠ [] := by
  intro fuel
  induction fuel with
  | zero => intro s t ht; simp [tokenizeJSAux] at ht
  | succ f ih =>
    intro s t ht
    cases s with
    | nil => simp [tokenizeJSAux] at ht
    | cons c r =>
      simp only [tokenizeJSAux, List.mem_cons] at ht
      rcases ht with rfl | ht
      · exact (jsStep_sound (c :: r) (by simp)).2
      · exact ih _ _ ht

theorem tokenizeJSAux_fuel :
    ∀ (n fuel : Nat) (s : Str), s.length ≤ n → s.length ≤ fuel →
      tokenizeJSAux fuel s = tokenizeJSAux s.length s := by
  intro n
  induction n with
  | zero =>
    intro fuel s hn _
    have : s = [] := List.eq_nil_of_length_eq_zero (Nat.le_zero.mp hn)
    subst this
    cases fuel <;> simp [tokenizeJSAux]
  | succ n ih =>
    intro fuel s hn hf
    cases s with
    | nil => cases fuel <;> simp [tokenizeJSAux]
    | cons c t =>
      cases fuel with
      | zero => simp at hf
      | succ f =>
        have hprog := jsStep_progress (c :: t) (by simp)
        simp only [List.length_cons]
        simp only [tokenizeJSAux]
        simp only [List.length_cons] at hn hf hprog
        rw [ih f _ (by omega) (by omega), ih t.length _ (by omega) (by omega)]

theorem tokenizeJSAux_eq (fuel : Nat) (s : Str) (h : s.length ≤ fuel) :
    tokenizeJSAux fuel s = tokenizeJS s :=
  tokenizeJSAux_fuel fuel fuel s h h

/-! ## The HTML lexer -/

theorem joinTexts_append (a b : List Token) :
    joinTexts (a ++ b) = joinTexts a ++ joinTexts b := by
  simp [joinTexts]

theorem splitAtCloseHtmlComment_sound :
    ∀ (s : Str) {a b : Str}, splitAtCloseHtmlComment s = some (a, b) →
      a ++ '-' :: '-' :: '>' :: b = s
  | [], _, _, h => by simp [splitAtCloseHtmlComment] at h
  | [c], _, _, h => by simp [splitAtCloseHtmlComment] at h
  | [c, d], _, _, h => by simp [splitAtCloseHtmlComment] at h
  | c :: d :: e :: rest, a, b, h => by
    rw [splitAtCloseHtmlComment] at h
    split at h
    · rename_i hcd
      obtain ⟨rfl, rfl, rfl⟩ := hcd
      simp only [Option.some.injEq, Prod.mk.injEq] at h
      obtain ⟨rfl, rfl⟩ := h
      simp
    · cases hrec : splitAtCloseHtmlComment (d :: e :: rest) with
      | none => rw [hrec] at h; simp at h
      | some p =>
        rw [hrec] at h
        simp only [Option.map_some', Option.some.injEq, Prod.mk.injEq] at h
        obtain ⟨rfl, rfl⟩ := h
        have := splitAtCloseHtmlComment_sound (d :: e :: rest) hrec
        rw [List.cons_append, this]

theorem matchHtmlComment_sound {s m r : Str} (h : matchHtmlComment s = some (m, r)) :
    m ++ r = s ∧ m ≠ [] := by
  match s with
  | [] => simp [matchHtmlComment] at h
  | [a] => simp [matchHtmlComment] at h
  | [a, b] => simp [matchHtmlComment] at h
  | [a, b, c] => simp [matchHtmlComment] at h
  | a :: b :: c :: d :: rest =>
    simp only [matchHtmlComment] at h
    split at h
    · cases hrec : splitAtCloseHtmlComment rest with
      | none => rw [hrec] at h; simp at h
      | some p =>
        rw [hrec] at h
        simp only [Option.map_some', Option.some.injEq, Prod.mk.injEq] at h
        obtain ⟨rfl, rfl⟩ := h
        have := splitAtCloseHtmlComment_sound rest hrec
        refine ⟨?_, by simp⟩
        simp only [List.cons_append, List.append_assoc, List.nil_append]
        rw [← this]
    · exact absurd h (by simp)

theorem matchDoctype_sound {s m r : Str} (h : matchDoctype s = some (m, r)) :
    m ++ r = s ∧ m ≠ [] := by
  match s with
  | [] => simp [matchDoctype] at h
  | [a] => simp [matchDoctype] at h
  | [a, b] => simp [matchDoctype] at h
  | [a, b, c] => simp [matchDoctype] at h
  | [a, b, c, d] => simp [matchDoctype] at h
  | [a, b, c, d, e] => simp [matchDoctype] at h
  | [a, b, c, d, e, f] => simp [matchDoctype] at h
  | [a, b, c, d, e, f, g] => simp [matchDoctype] at h
  | [a, b, c, d, e, f, g, i] => simp [matchDoctype] at h
  | a :: b :: c1 :: c2 :: c3 :: c4 :: c5 :: c6 :: c7 :: rest =>
    simp only [matchDoctype] at h
    split at h
    · cases hdw : rest.dropWhile (fun x => x != '>') with
      | nil => rw [hdw] at h; simp at h
      | cons g r2 =>
        rw [hdw] at h
        simp only [Option.some.injEq, Prod.mk.injEq] at h
        obtain ⟨rfl, rfl⟩ := h
        have hs : rest.takeWhile (fun x => x != '>') ++ (g :: r2) = rest := by
          rw [← hdw]; exact List.takeWhile_append_dropWhile _ _
        refine ⟨?_, by simp⟩
        simp only [List.cons_append, List.append_assoc, List.cons_append, List.nil_append]
        rw [hs]
    · exact absurd h (by simp)

theorem matchTag_sound {s pn name r : Str} (h : matchTag s = some (pn, name, r)) :
    (pn ++ name) ++ r = s ∧ pn ≠ [] ∧ name ≠ [] := by
  match s with
  | [] => simp [matchTag] at h
  | [a] => simp [matchTag] at h
  | a :: b :: rest =>
    simp only [matchTag] at h
    split at h
    · rename_i ha
      subst ha
      split at h
      · rename_i hb
        subst hb
        cases rest with
        | nil => simp at h
        | cons c rest2 =>
          simp only at h
          split at h
          · simp only [Option.some.injEq, Prod.mk.injEq] at h
            obtain ⟨rfl, rfl, rfl⟩ := h
            refine ⟨?_, by simp, by simp⟩
            simp [List.takeWhile_append_dropWhile]
          · exact absurd h (by simp)
      · split at h
        · simp only [Option.some.injEq, Prod.mk.injEq] at h
          obtain ⟨rfl, rfl, rfl⟩ := h
          refine ⟨?_, by simp, by simp⟩
          simp [List.takeWhile_append_dropWhile]
        · exact absurd h (by simp)
    · exact absurd h (by simp)

theorem matchAttrName_sound {s name ws r : Str} (h : matchAttrName s = some (name, ws, r)) :
    name ++ ws ++ '=' :: r = s ∧ name ≠ [] ∧ ∀ w ∈ ws, isJsSpace w = true := by
  match s with
  | [] => simp [matchAttrName] at h
  | c :: rest =>
    simp only [matchAttrName] at h
    split at h
    · cases hdw : (rest.dropWhile isAttrChar).dropWhile isJsSpace with
      | nil => rw [hdw] at h; simp at h
      | cons e r2 =>
        rw [hdw] at h
        simp only at h
        split at h
        · rename_i he
          subst he
          simp only [Option.some.injEq, Prod.mk.injEq] at h
          obtain ⟨rfl, rfl, rfl⟩ := h
          refine ⟨?_, by simp, ?_⟩
          · have h1 : (rest.dropWhile isAttrChar).takeWhile isJsSpace ++ ('=' :: r2) =
                rest.dropWhile isAttrChar := by
              rw [← hdw]; exact List.takeWhile_append_dropWhile _ _
            have h2 : rest.takeWhile isAttrChar ++ rest.dropWhile isAttrChar = rest :=
              List.takeWhile_append_dropWhile _ _
            simp only [List.cons_append, List.append_assoc]
            rw [h1, h2]
          · intro w hw
            exact List.mem_takeWhile_imp hw
        · exact absurd h (by simp)
    · exact absurd h (by simp)

theorem matchHtmlString_sound {q : Char} {s m r : Str} (h : matchHtmlString q s = some (m, r)) :
    m ++ r = s ∧ m ≠ [] := by
  match s with
  | [] => simp [matchHtmlString] at h
  | c :: rest =>
    simp only [matchHtmlString] at h
    split at h
    · cases hdw : rest.dropWhile (fun x => x != q) with
      | nil => rw [hdw] at h; simp at h
      | cons g r2 =>
        rw [hdw] at h
        simp only [Option.some.injEq, Prod.mk.injEq] at h
        obtain ⟨rfl, rfl⟩ := h
        have hs : rest.takeWhile (fun x => x != q) ++ (g :: r2) = rest := by
          rw [← hdw]; exact List.takeWhile_append_dropWhile _ _
        refine ⟨?_, by simp⟩
        simp only [List.cons_append, List.append_assoc, List.cons_append, List.nil_append]
        rw [hs]
    · exact absurd h (by simp)

theorem matchCloseBracket_sound {s m r : Str} (h : matchCloseBracket s = some (m, r)) :
    m ++ r = s ∧ m ≠ [] := by
  match s with
  | [] => simp [matchCloseBracket] at h
  | a :: rest =>
    simp only [matchCloseBracket] at h
    split at h
    · rename_i ha
      subst ha
      cases rest with
      | nil => simp at h
      | cons b r2 =>
        simp only at h
        split at h
        · rename_i hb
          subst hb
          simp only [Option.some.injEq, Prod.mk.injEq] at h
          obtain ⟨rfl, rfl⟩ := h
          exact ⟨rfl, by simp⟩
        · exact absurd h (by simp)
    · split at h
      · rename_i ha'
        subst ha'
        simp only [Option.some.injEq, Prod.mk.injEq] at h
        obtain ⟨rfl, rfl⟩ := h
        exact ⟨rfl, by simp⟩
      · exact absurd h (by simp)

theorem hasWsEq_cons_true {l : Str} (a : Char) (h : hasWsEq l = true) :
    hasWsEq (a :: l) = true := by
  cases l with
  | nil => simp [hasWsEq] at h
  | cons b t => rw [hasWsEq, h]; simp

theorem hasWsEq_pair {pre r' : Str} {w : Char} (hw : isJsSpace w = true) :
    hasWsEq (pre ++ w :: '=' :: r') = true := by
  induction pre with
  | nil => rw [List.nil_append, hasWsEq]; simp [hw]
  | cons a pre ih => exact hasWsEq_cons_true a ih

theorem hasWsEq_false_cons {l : Str} {a : Char} (h : hasWsEq (a :: l) = false) :
    hasWsEq l = false := by
  cases l with
  | nil => rfl
  | cons b t =>
    rw [hasWsEq, Bool.or_eq_false_iff] at h
    exact h.2

theorem hasWsEq_false_append :
    ∀ {m l : Str}, hasWsEq (m ++ l) = false → hasWsEq l = false := by
  intro m
  induction m with
  | nil => intro l h; exact h
  | cons a m ih => intro l h; exact ih (hasWsEq_false_cons h)

theorem htmlStep_sound (s : Str) (h : s ≠ []) :
    ∃ m : Str, m ≠ [] ∧ m ++ (htmlStep s).2 = s ∧
      (∀ t ∈ (htmlStep s).1, t.content ≠ []) ∧
      (hasWsEq s = false → joinTexts (htmlStep s).1 = m) := by
  cases s with
  | nil => exact absurd rfl h
  | cons c0 t0 => ?_
  unfold htmlStep
  split
  · rename_i m r heq
    obtain ⟨h1, h2⟩ := matchHtmlComment_sound heq
    exact ⟨m, h2, h1, by simp [h2], fun _ => by simp [joinTexts]⟩
  split
  · rename_i m r heq
    obtain ⟨h1, h2⟩ := matchDoctype_sound heq
    exact ⟨m, h2, h1, by simp [h2], fun _ => by simp [joinTexts]⟩
  split
  · rename_i pn name r heq
    obtain ⟨h1, h2, h3⟩ := matchTag_sound heq
    refine ⟨pn ++ name, by simp [h2], by simpa using h1, by simp [h2, h3], ?_⟩
    intro _
    simp [joinTexts]
  split
  · rename_i name ws r heq
    obtain ⟨h1, h2, h3⟩ := matchAttrName_sound heq
    refine ⟨name ++ ws ++ ['='], by simp [h2], by simpa using h1, by simp [h2], ?_⟩
    intro hws
    have hwsnil : ws = [] := by
      by_contra hne
      obtain ⟨w, ws', hlast⟩ : ∃ w ws', ws = ws' ++ [w] := by
        rcases List.eq_nil_or_concat ws with h' | ⟨ws', w, h'⟩
        · exact absurd h' hne
        · exact ⟨w, ws', by simpa using h'⟩
      have hwsp : isJsSpace w = true := h3 w (by simp [hlast])
      have : hasWsEq (c0 :: t0) = true := by
        rw [← h1, hlast]
        have : name ++ (ws' ++ [w]) ++ '=' :: r = (name ++ ws') ++ (w :: '=' :: r) := by
          simp
        rw [this]
        exact hasWsEq_pair hwsp
      rw [this] at hws
      exact absurd hws (by simp)
    subst hwsnil
    simp [joinTexts]
  split
  · rename_i m r heq
    obtain ⟨h1, h2⟩ := matchHtmlString_sound heq
    exact ⟨m, h2, h1, by simp [h2], fun _ => by simp [joinTexts]⟩
  split
  · rename_i m r heq
    obtain ⟨h1, h2⟩ := matchHtmlString_sound heq
    exact ⟨m, h2, h1, by simp [h2], fun _ => by simp [joinTexts]⟩
  split
  · rename_i m r heq
    obtain ⟨h1, h2⟩ := matchCloseBracket_sound heq
    exact ⟨m, h2, h1, by simp [h2], fun _ => by simp [joinTexts]⟩
  split
  · rename_i m r heq
    obtain ⟨h1, h2⟩ := matchWhitespace_sound heq
    exact ⟨m, h2, h1, by simp [h2], fun _ => by simp [joinTexts]⟩
  split
  · exact ⟨[c0], by simp, by simp, by simp, fun _ => by simp [joinTexts]⟩
  · rename_i p pre htw
    refine ⟨p :: pre, by simp, ?_, by simp, fun _ => by simp [joinTexts]⟩
    rw [← htw]
    exact List.takeWhile_append_dropWhile _ _

theorem htmlStep_progress (s : Str) (h : s ≠ []) : (htmlStep s).2.length < s.length := by
  obtain ⟨m, hm, hsplit, -, -⟩ := htmlStep_sound s h
  have hlen := congrArg List.length hsplit
  simp only [List.length_append] at hlen
  have h3 : 0 < m.length := List.length_pos.mpr hm
  omega

theorem tokenizeHTMLAux_join :
    ∀ (fuel : Nat) (s : Str), hasWsEq s = false → s.length ≤ fuel →
      joinTexts (tokenizeHTMLAux fuel s) = s := by
  intro fuel
  induction fuel with
  | zero =>
    intro s _ hs
    have : s = [] := List.eq_nil_of_length_eq_zero (Nat.le_zero.mp hs)
    subst this
    simp [tokenizeHTMLAux, joinTexts]
  | succ f ih =>
    intro s hws hs
    cases s with
    | nil => simp [tokenizeHTMLAux, joinTexts]
    | cons c t =>
      obtain ⟨m, hm, hsplit, -, hjoin⟩ := htmlStep_sound (c :: t) (by simp)
      have hprog := htmlStep_progress (c :: t) (by simp)
      simp only [tokenizeHTMLAux]
      rw [joinTexts_append, hjoin hws,
        ih _ (hasWsEq_false_append (by rw [hsplit]; exact hws))
          (by simp only [List.length_cons] at hs hprog ⊢; omega)]
      exact hsplit

theorem tokenizeHTML_join (s : Str) (hws : hasWsEq s = false) :
    joinTexts (tokenizeHTML s) = s :=
  tokenizeHTMLAux_join s.length s hws le_rfl

theorem tokenizeHTMLAux_nonempty :
    ∀ (fuel : Nat) (s : Str) (t : Token), t ∈ tokenizeHTMLAux fuel s → t.content ≠ [] := by
  intro fuel
  induction fuel with
  | zero => intro s t ht; simp [tokenizeHTMLAux] at ht
  | succ f ih =>
    intro s t ht
    cases s with
    | nil => simp [tokenizeHTMLAux] at ht
    | cons c r =>
      simp only [tokenizeHTMLAux, List.mem_append] at ht
      rcases ht with ht | ht
      · obtain ⟨-, -, -, hne, -⟩ := htmlStep_sound (c :: r) (by simp)
        exact hne t ht
      · exact ih _ _ ht

theorem tokenizeHTMLAux_fuel :
    ∀ (n fuel : Nat) (s : Str), s.length ≤ n → s.length ≤ fuel →
      tokenizeHTMLAux fuel s = tokenizeHTMLAux s.length s := by
  intro n
  induction n with
  | zero =>
    intro fuel s hn _
    have : s = [] := List.eq_nil_of_length_eq_zero (Nat.le_zero.mp hn)
    subst this
    cases fuel <;> simp [tokenizeHTMLAux]
  | succ n ih =>
    intro fuel s hn hf
    cases s with
    | nil => cases fuel <;> simp [tokenizeHTMLAux]
    | cons c t =>
      cases fuel with
      | zero => simp at hf
      | succ f =>
        have hprog := htmlStep_progress (c :: t) (by simp)
        simp only [List.length_cons]
        simp only [tokenizeHTMLAux]
        simp only [List.length_cons] at hn hf hprog
        rw [ih f _ (by omega) (by omega), ih t.length _ (by omega) (by omega)]

theorem tokenizeHTMLAux_eq (fuel : Nat) (s : Str) (h : s.length ≤ fuel) :
    tokenizeHTMLAux fuel s = tokenizeHTML s :=
  tokenizeHTMLAux_fuel fuel fuel s h h

/-! ## The JSON lexer -/

theorem matchJsonNumber_sound {s m r : Str} (h : matchJsonNumber s = some (m, r)) :
    m ++ r = s ∧ m ≠ [] := by
  match s with
  | [] => simp [matchJsonNumber] at h
  | c :: rest =>
    simp only [matchJsonNumber] at h
    split at h
    · rename_i hc
      subst hc
      cases hrec : matchDecimal rest with
      | none => rw [hrec] at h; simp at h
      | some p =>
        rw [hrec] at h
        simp only [Option.map_some', Option.some.injEq, Prod.mk.injEq] at h
        obtain ⟨rfl, rfl⟩ := h
        have := matchDecimal_sound (s := rest) (by rw [hrec])
        refine ⟨?_, by simp⟩
        simp only [List.cons_append]
        rw [this.1]
    · exact matchDecimal_sound h

theorem jsonKeywords_ne_nil : ∀ k ∈ jsonKeywords, k ≠ [] := by decide

theorem matchJsonKeyword_sound {s m r : Str} (h : matchJsonKeyword s = some (m, r)) :
    m ++ r = s ∧ m ≠ [] := by
  simp only [matchJsonKeyword] at h
  cases hf : jsonKeywords.find? (fun k => startsWith k s) with
  | some k =>
    rw [hf] at h
    simp only [Option.some.injEq, Prod.mk.injEq] at h
    obtain ⟨rfl, rfl⟩ := h
    have hp : startsWith k s = true := by
      have := List.find?_some hf
      simpa using this
    exact ⟨startsWith_sound k s hp, jsonKeywords_ne_nil k (List.mem_of_find?_eq_some hf)⟩
  | none => rw [hf] at h; simp at h

theorem jsonStep_sound (s : Str) (h : s ≠ []) (f : Bool) :
    (jsonStep s f).1.content ++ (jsonStep s f).2.2 = s ∧ (jsonStep s f).1.content ≠ [] := by
  cases s with
  | nil => exact absurd rfl h
  | cons c t =>
    unfold jsonStep
    split
    · rename_i m r heq; simpa using matchString_sound heq
    split
    · rename_i m r heq; simpa using matchJsonNumber_sound heq
    split
    · rename_i m r heq; simpa using matchJsonKeyword_sound heq
    split
    · rename_i m r heq; simpa using matchCharOf_sound heq
    split
    · rename_i m r heq; simpa using matchWhitespace_sound heq
    simp

theorem jsonStep_progress (s : Str) (h : s ≠ []) (f : Bool) :
    (jsonStep s f).2.2.length < s.length := by
  obtain ⟨h1, h2⟩ := jsonStep_sound s h f
  have hlen := congrArg List.length h1
  simp only [List.length_append] at hlen
  have h3 : 0 < (jsonStep s f).1.content.length := List.length_pos.mpr h2
  omega

theorem tokenizeJSONAux_join :
    ∀ (fuel : Nat) (s : Str) (flag : Bool), s.length ≤ fuel →
      joinTexts (tokenizeJSONAux fuel s flag) = s := by
  intro fuel
  induction fuel with
  | zero =>
    intro s flag hs
    have : s = [] := List.eq_nil_of_length_eq_zero (Nat.le_zero.mp hs)
    subst this
    simp [tokenizeJSONAux, joinTexts]
  | succ f ih =>
    intro s flag hs
    cases s with
    | nil => simp [tokenizeJSONAux, joinTexts]
    | cons c t =>
      have hsound := jsonStep_sound (c :: t) (by simp) flag
      have hprog := jsonStep_progress (c :: t) (by simp) flag
      simp only [tokenizeJSONAux]
      rw [joinTexts_cons, ih _ _ (by simp only [List.length_cons] at hs hprog ⊢; omega)]
      exact hsound.1

theorem tokenizeJSON_join (s : Str) : joinTexts (tokenizeJSON s) = s :=
  tokenizeJSONAux_join s.length s false le_rfl

theorem tokenizeJSONAux_nonempty :
    ∀ (fuel : Nat) (s : Str) (flag : Bool) (t : Token),
      t ∈ tokenizeJSONAux fuel s flag → t.content ≠ [] := by
  intro fuel
  induction fuel with
  | zero => intro s flag t ht; simp [tokenizeJSONAux] at ht
  | succ f ih =>
    intro s flag t ht
    cases s with
    | nil => simp [tokenizeJSONAux] at ht
    | cons c r =>
      simp only [tokenizeJSONAux, List.mem_cons] at ht
      rcases ht with rfl | ht
      · exact (jsonStep_sound (c :: r) (by simp) flag).2
      · exact ih _ _ _ ht

theorem tokenizeJSONAux_fuel :
    ∀ (n fuel : Nat) (s : Str) (flag : Bool), s.length ≤ n → s.length ≤ fuel →
      tokenizeJSONAux fuel s flag = tokenizeJSONAux s.length s flag := by
  intro n
  induction n with
  | zero =>
    intro fuel s flag hn _
    have : s = [] := List.eq_nil_of_length_eq_zero (Nat.le_zero.mp hn)
    subst this
    cases fuel <;> simp [tokenizeJSONAux]
  | succ n ih =>
    intro fuel s flag hn hf
    cases s with
    | nil => cases fuel <;> simp [tokenizeJSONAux]
    | cons c t =>
      cases fuel with
      | zero => simp at hf
      | succ f =>
        have hprog := jsonStep_progress (c :: t) (by simp) flag
        simp only [List.length_cons]
        simp only [tokenizeJSONAux]
        simp only [List.length_cons] at hn hf hprog
        rw [ih f _ _ (by omega) (by omega), ih t.length _ _ (by omega) (by omega)]

theorem tokenizeJSONAux_eq (fuel : Nat) (s : Str) (flag : Bool) (h : s.length ≤ fuel) :
    tokenizeJSONAux fuel s flag = tokenizeJSONAux s.length s flag :=
  tokenizeJSONAux_fuel fuel fuel s flag h h

/-! ## Line segmentation -/

theorem splitNL_ne_nil : ∀ (s : Str), splitNL s ≠ [] := by
  intro s
  cases s with
  | nil => simp [splitNL]
  | cons c rest =>
    rw [splitNL]
    split
    · simp
    · cases hrec : splitNL rest with
      | nil => simp
      | cons p ps => simp

theorem splitNL_head :
    ∀ (s : Str), ∃ ps, splitNL s = s.takeWhile (fun x => x != '\n') :: ps := by
  intro s
  induction s with
  | nil => exact ⟨[], rfl⟩
  | cons c rest ih =>
    rw [splitNL]
    split
    · rename_i hc
      subst hc
      refine ⟨splitNL rest, ?_⟩
      simp [List.takeWhile_cons]
    · rename_i hc
      obtain ⟨ps, hps⟩ := ih
      rw [hps]
      refine ⟨ps, ?_⟩
      have : (c != '\n') = true := by simpa using hc
      simp [List.takeWhile_cons, this]

theorem joinNL_cons_ne (x : Str) {l : List Str} (h : l ≠ []) :
    joinNL (x :: l) = x ++ '\n' :: joinNL l := by
  cases l with
  | nil => exact absurd rfl h
  | cons y t => rfl

theorem joinNL_splitNL : ∀ (s : Str), joinNL (splitNL s) = s := by
  intro s
  induction s with
  | nil => rfl
  | cons c rest ih =>
    rw [splitNL]
    split
    · rename_i hc
      subst hc
      rw [joinNL_cons_ne _ (splitNL_ne_nil rest), ih]
      simp
    · cases hrec : splitNL rest with
      | nil => exact absurd hrec (splitNL_ne_nil rest)
      | cons p ps =>
        rw [hrec] at ih
        cases ps with
        | nil =>
          simp only [joinNL] at ih ⊢
          rw [ih]
        | cons p2 ps2 =>
          rw [joinNL_cons_ne _ (by simp)] at ih
          rw [joinNL_cons_ne _ (by simp)]
          simp only [List.cons_append]
          rw [ih]

theorem splitNL_length : ∀ (s : Str), (splitNL s).length = s.count '\n' + 1 := by
  intro s
  induction s with
  | nil => rfl
  | cons c rest ih =>
    rw [splitNL]
    split
    · rename_i hc
      subst hc
      simp [ih, List.count_cons]
    · rename_i hc
      cases hrec : splitNL rest with
      | nil => exact absurd hrec (splitNL_ne_nil rest)
      | cons p ps =>
        rw [hrec] at ih
        simp only [List.length_cons] at ih ⊢
        rw [List.count_cons]
        simp only [beq_iff_eq]
        rw [if_neg hc]
        omega

theorem splitNL_infix : ∀ (s : Str), ∀ p ∈ splitNL s, p <:+: s := by
  intro s
  induction s with
  | nil =>
    intro p hp
    simp [splitNL] at hp
    simp [hp]
  | cons c rest ih =>
    intro p hp
    rw [splitNL] at hp
    split at hp
    · rename_i hc
      subst hc
      rcases List.mem_cons.mp hp with rfl | hp
      · exact List.nil_infix
      · exact (ih p hp).trans (List.infix_cons (List.infix_refl rest))
    · cases hrec : splitNL rest with
      | nil => exact absurd hrec (splitNL_ne_nil rest)
      | cons p0 ps =>
        rw [hrec] at hp
        rcases List.mem_cons.mp hp with rfl | hp
        · obtain ⟨ps', hps'⟩ := splitNL_head rest
          rw [hrec] at hps'
          have hp0 : p0 = rest.takeWhile (fun x => x != '\n') := by
            exact (List.cons.injEq _ _ _ _ ▸ hps').1
          have hpre : p0 <+: rest := hp0 ▸ List.takeWhile_prefix _
          obtain ⟨tl, htl⟩ := hpre
          exact ⟨[], tl, by simp [htl]⟩
        · have : p ∈ splitNL rest := by rw [hrec]; exact List.mem_cons_of_mem _ hp
          exact (ih p this).trans (List.infix_cons (List.infix_refl rest))

theorem joinTexts_frag (ty : TokenType) (p : Str) : joinTexts (frag ty p) = p := by
  rw [frag]
  split
  · rename_i hp
    rw [joinTexts_nil]
    exact (List.isEmpty_iff.mp hp).symm
  · simp [joinTexts]

theorem tokenLines_ne_nil (ty : TokenType) (s : Str) : tokenLines ty s ≠ [] := by
  rw [tokenLines]
  intro h
  exact splitNL_ne_nil s (List.map_eq_nil_iff.mp h)

theorem map_joinTexts_tokenLines (ty : TokenType) (s : Str) :
    (tokenLines ty s).map joinTexts = splitNL s := by
  rw [tokenLines, List.map_map]
  have : ∀ p ∈ splitNL s, (joinTexts ∘ frag ty) p = id p := by
    intro p _
    simp [joinTexts_frag]
  rw [List.map_congr_left this, List.map_id]

theorem mergeLines_ne_nil :
    ∀ (gs hs : List (List Token)), gs ≠ [] → mergeLines gs hs ≠ []
  | [], _, hg => absurd rfl hg
  | [g], h :: hs, _ => by simp [mergeLines]
  | [g], [], _ => by simp [mergeLines]
  | g :: g2 :: gs, hs, _ => by rw [mergeLines]; simp

theorem toLines_ne_nil : ∀ (ts : List Token), toLines ts ≠ []
  | [] => by simp [toLines]
  | t :: ts => by
    rw [toLines]
    exact mergeLines_ne_nil _ _ (tokenLines_ne_nil _ _)

theorem mergeLines_length :
    ∀ (gs hs : List (List Token)), gs ≠ [] → hs ≠ [] →
      (mergeLines gs hs).length + 1 = gs.length + hs.length
  | [], _, hg, _ => absurd rfl hg
  | [g], h :: hs, _, _ => by
    simp only [mergeLines, List.length_cons, List.length_nil]
    omega
  | [g], [], _, hh => absurd rfl hh
  | g :: g2 :: gs, hs, _, hh => by
    rw [mergeLines]
    have := mergeLines_length (g2 :: gs) hs (by simp) hh
    simp only [List.length_cons] at this ⊢
    omega

theorem joinNL_mergeLines :
    ∀ (gs hs : List (List Token)), gs ≠ [] → hs ≠ [] →
      joinNL ((mergeLines gs hs).map joinTexts) =
        joinNL (gs.map joinTexts) ++ joinNL (hs.map joinTexts)
  | [], _, hg, _ => absurd rfl hg
  | [g], h :: hs, _, _ => by
    rw [mergeLines]
    cases hs with
    | nil => simp [joinNL, joinTexts_append]
    | cons h2 hs2 =>
      simp only [List.map_cons]
      have e1 : joinNL (joinTexts (g ++ h) :: joinTexts h2 :: List.map joinTexts hs2) =
          joinTexts (g ++ h) ++ '\n' :: joinNL (joinTexts h2 :: List.map joinTexts hs2) :=
        joinNL_cons_ne _ (by simp)
      have e2 : joinNL (joinTexts h :: joinTexts h2 :: List.map joinTexts hs2) =
          joinTexts h ++ '\n' :: joinNL (joinTexts h2 :: List.map joinTexts hs2) :=
        joinNL_cons_ne _ (by simp)
      rw [e1, e2, joinTexts_append]
      simp [joinNL, List.append_assoc]
  | [g], [], _, hh => absurd rfl hh
  | g :: g2 :: gs, hs, _, hh => by
    rw [mergeLines]
    have hmne : mergeLines (g2 :: gs) hs ≠ [] := mergeLines_ne_nil _ _ (by simp)
    have ih := joinNL_mergeLines (g2 :: gs) hs (by simp) hh
    simp only [List.map_cons]
    rw [joinNL_cons_ne _ (by simpa using hmne), joinNL_cons_ne _ (by simp)]
    rw [ih]
    simp [List.append_assoc]

theorem mergeLines_mem :
    ∀ (gs hs : List (List Token)) (g : List Token), g ∈ mergeLines gs hs →
      ∀ x ∈ g, (∃ g' ∈ gs, x ∈ g') ∨ (∃ h' ∈ hs, x ∈ h')
  | [], hs, g, hg, x, hx => Or.inr ⟨g, hg, hx⟩
  | [g0], h :: hs, g, hg, x, hx => by
    rw [mergeLines] at hg
    rcases List.mem_cons.mp hg with rfl | hg
    · rcases List.mem_append.mp hx with hx | hx
      · exact Or.inl ⟨g0, by simp, hx⟩
      · exact Or.inr ⟨h, by simp, hx⟩
    · exact Or.inr ⟨g, List.mem_cons_of_mem _ hg, hx⟩
  | [g0], [], g, hg, x, hx => by
    rw [mergeLines] at hg
    rcases List.mem_cons.mp hg with rfl | hg
    · exact Or.inl ⟨g, by simp, hx⟩
    · simp at hg
  | g0 :: g2 :: gs, hs, g, hg, x, hx => by
    rw [mergeLines] at hg
    rcases List.mem_cons.mp hg with rfl | hg
    · exact Or.inl ⟨g, by simp, hx⟩
    · rcases mergeLines_mem (g2 :: gs) hs g hg x hx with ⟨g', hg', hx'⟩ | h'
      · exact Or.inl ⟨g', List.mem_cons_of_mem _ hg', hx'⟩
      · exact Or.inr h'

theorem toLines_join : ∀ (ts : List Token),
    joinNL ((toLines ts).map joinTexts) = joinTexts ts := by
  intro ts
  induction ts with
  | nil => simp [toLines, joinNL, joinTexts]
  | cons t ts ih =>
    rw [toLines, joinNL_mergeLines _ _ (tokenLines_ne_nil _ _) (toLines_ne_nil ts),
      map_joinTexts_tokenLines, joinNL_splitNL, ih, joinTexts_cons]

theorem toLines_length : ∀ (ts : List Token),
    (toLines ts).length = (joinTexts ts).count '\n' + 1 := by
  intro ts
  induction ts with
  | nil => simp [toLines, joinTexts]
  | cons t ts ih =>
    rw [toLines]
    have hm := mergeLines_length (tokenLines t.type t.content) (toLines ts)
      (tokenLines_ne_nil _ _) (toLines_ne_nil ts)
    have hl : (tokenLines t.type t.content).length = t.content.count '\n' + 1 := by
      rw [tokenLines, List.length_map, splitNL_length]
    rw [joinTexts_cons, List.count_append]
    omega

theorem toLines_mem : ∀ (ts : List Token), ∀ g ∈ toLines ts, ∀ x ∈ g,
    ∃ t ∈ ts, x.type = t.type ∧ x.content <:+: t.content := by
  intro ts
  induction ts with
  | nil =>
    intro g hg x hx
    simp [toLines] at hg
    subst hg
    simp at hx
  | cons t ts ih =>
    intro g hg x hx
    rw [toLines] at hg
    rcases mergeLines_mem _ _ g hg x hx with ⟨g', hg', hx'⟩ | ⟨h', hh', hx'⟩
    · rw [tokenLines] at hg'
      obtain ⟨p, hp, rfl⟩ := List.mem_map.mp hg'
      rw [frag] at hx'
      split at hx'
      · simp at hx'
      · rcases List.mem_singleton.mp hx' with rfl
        exact ⟨t, by simp, rfl, splitNL_infix _ p hp⟩
    · obtain ⟨t', ht', h1, h2⟩ := ih h' hh' x hx'
      exact ⟨t', List.mem_cons_of_mem _ ht', h1, h2⟩

/-! ## Which matcher fires at a given head character -/

theorem char_ne_of_toNat {c d : Char} (h : c.toNat ≠ d.toNat) : c ≠ d :=
  fun he => h (he ▸ rfl)

theorem isJsSpace_val {c : Char} (h : isJsSpace c = true) :
    c.toNat ≤ 32 ∨ 160 ≤ c.toNat := by
  simp only [isJsSpace, decide_eq_true_eq] at h
  omega

theorem matchLineComment_none_head {c : Char} (hc : c ≠ '/') (t : Str) :
    matchLineComment (c :: t) = none := by
  cases t with
  | nil => rfl
  | cons d t2 => simp [matchLineComment, hc]

theorem matchBlockComment_none_head {c : Char} (hc : c ≠ '/') (t : Str) :
    matchBlockComment (c :: t) = none := by
  cases t with
  | nil => rfl
  | cons d t2 => simp [matchBlockComment, hc]

theorem matchString_none_head {q c : Char} (hc : c ≠ q) (t : Str) :
    matchString q (c :: t) = none := by
  simp [matchString, hc]

theorem matchRadix_none_head {tag : Char} {digit : Char → Bool} {c : Char} (hc : c ≠ '0')
    (t : Str) : matchRadix tag digit (c :: t) = none := by
  cases t with
  | nil => rfl
  | cons d t2 => simp [matchRadix, hc]

theorem matchDecimal_none_head {c : Char} (hd : isDigit c = false) (t : Str) :
    matchDecimal (c :: t) = none := by
  simp [matchDecimal, List.takeWhile_cons, hd]

theorem matchIdent_none_head {c : Char} (hd : isIdentStart c = false) (t : Str) :
    matchIdent (c :: t) = none := by
  simp [matchIdent, hd]

theorem matchWhitespace_none_head {c : Char} (hd : isJsSpace c = false) (t : Str) :
    matchWhitespace (c :: t) = none := by
  simp [matchWhitespace, List.takeWhile_cons, hd]

theorem matchCharOf_none {cls : Str} {c : Char} (hc : cls.contains c = false) (t : Str) :
    matchCharOf cls (c :: t) = none := by
  have hc' : c ∉ cls := by simpa using hc
  simp [matchCharOf, hc']

theorem contains_eq_false {c : Char} :
    ∀ (l : Str), (∀ x ∈ l, c ≠ x) → l.contains c = false := by
  intro l
  induction l with
  | nil => intro; rfl
  | cons b bs ih =>
    intro hall
    have hb : (c == b) = false := beq_eq_false_iff_ne.mpr (hall b (by simp))
    rw [List.contains_cons, hb, Bool.false_or]
    exact ih fun x hx => hall x (List.mem_cons_of_mem _ hx)

theorem jsMultiOps_head {c : Char} {cs : Str} :
    ∀ op ∈ jsMultiOps, startsWith op (c :: cs) = true →
      c = '=' ∨ c = '!' ∨ c = '<' ∨ c = '>' ∨ c = '&' ∨ c = '|' ∨ c = '.' ∨
        c = '?' ∨ c = '+' ∨ c = '-' := by
  intro op hop hsw
  simp only [jsMultiOps, List.mem_cons, List.not_mem_nil, or_false] at hop
  rcases hop with rfl | rfl | rfl | rfl | rfl | rfl | rfl | rfl | rfl | rfl | rfl | rfl |
    rfl | rfl <;>
    (simp only [startsWith, Bool.and_eq_true, beq_iff_eq] at hsw; obtain ⟨rfl, -⟩ := hsw;
      tauto)

theorem multiFind_none {c : Char} (cs : Str)
    (hc : ¬(c = '=' ∨ c = '!' ∨ c = '<' ∨ c = '>' ∨ c = '&' ∨ c = '|' ∨ c = '.' ∨
      c = '?' ∨ c = '+' ∨ c = '-')) :
    jsMultiOps.find? (fun op => startsWith op (c :: cs)) = none := by
  rw [List.find?_eq_none]
  intro op hop hsw
  exact hc (jsMultiOps_head op hop (by simpa using hsw))

theorem matchOps_head {c : Char} (cs : Str)
    (hc : ¬(c = '=' ∨ c = '!' ∨ c = '<' ∨ c = '>' ∨ c = '&' ∨ c = '|' ∨ c = '.' ∨
      c = '?' ∨ c = '+' ∨ c = '-')) :
    matchOps (c :: cs) =
      if jsSingleOps.contains c then some ([c], cs) else none := by
  simp only [matchOps, multiFind_none cs hc]

theorem jsonKeywords_head {c : Char} {cs : Str} :
    ∀ k ∈ jsonKeywords, startsWith k (c :: cs) = true → c = 't' ∨ c = 'f' ∨ c = 'n' := by
  intro k hk hsw
  simp only [jsonKeywords, List.mem_cons, List.not_mem_nil, or_false] at hk
  rcases hk with rfl | rfl | rfl <;>
    (simp only [startsWith, Bool.and_eq_true, beq_iff_eq] at hsw; obtain ⟨rfl, -⟩ := hsw;
      tauto)

theorem matchJsonKeyword_none_head {c : Char} (cs : Str)
    (hc : ¬(c = 't' ∨ c = 'f' ∨ c = 'n')) : matchJsonKeyword (c :: cs) = none := by
  simp only [matchJsonKeyword]
  rw [List.find?_eq_none.mpr]
  intro k hk hsw
  exact hc (jsonKeywords_head k hk (by simpa using hsw))

theorem matchJsonNumber_none_head {c : Char} (hc : c ≠ '-') (hd : isDigit c = false)
    (t : Str) : matchJsonNumber (c :: t) = none := by
  simp only [matchJsonNumber]
  rw [if_neg hc]
  exact matchDecimal_none_head hd t

theorem not_space_char {c : Char} (hv : c.toNat ≤ 32 ∨ 160 ≤ c.toNat) {d : Char}
    (hd : 32 < d.toNat ∧ d.toNat < 160) : c ≠ d :=
  char_ne_of_toNat (by omega)

/-- In the JSON lexer, when the whitespace recognizer fires (all earlier
recognizers are then impossible, since no whitespace character can start a
string, number, keyword or punctuation match), the emitted token is plain and
the colon-flag is set to `false` — regardless of its previous value. -/
theorem jsonStep_whitespace {s m r : Str} (f : Bool) (h : matchWhitespace s = some (m, r)) :
    jsonStep s f = (⟨.plain, m⟩, false, r) := by
  obtain ⟨-, hne⟩ := matchWhitespace_sound h
  have hminv : m = s.takeWhile isJsSpace ∧ r = s.dropWhile isJsSpace := by
    simp only [matchWhitespace] at h
    split at h
    · exact absurd h (by simp)
    · simp only [Option.some.injEq, Prod.mk.injEq] at h
      exact ⟨h.1.symm, h.2.symm⟩
  cases hs : s with
  | nil => subst hs; simp [matchWhitespace] at h
  | cons c t =>
    subst hs
    have hc : isJsSpace c = true := by
      cases hisc : isJsSpace c with
      | false =>
        exfalso
        apply hne
        rw [hminv.1, List.takeWhile_cons, hisc]
        simp
      | true => rfl
    have hv := isJsSpace_val hc
    have h1 : matchString dquote (c :: t) = none :=
      matchString_none_head (not_space_char hv (by decide)) t
    have h2 : matchJsonNumber (c :: t) = none :=
      matchJsonNumber_none_head (not_space_char hv (by decide))
        (by simp only [isDigit, decide_eq_false_iff_not]; omega) t
    have h3 : matchJsonKeyword (c :: t) = none := by
      refine matchJsonKeyword_none_head t ?_
      rintro (h' | h' | h') <;> exact not_space_char hv (by decide) h'
    have h4 : matchCharOf jsonPunctChars (c :: t) = none := by
      refine matchCharOf_none (contains_eq_false _ ?_) t
      intro x hx
      simp only [show jsonPunctChars = ['\x7b', '\x7d', '[', ']', ':', ','] from rfl,
        List.mem_cons, List.not_mem_nil, or_false] at hx
      rcases hx with rfl | rfl | rfl | rfl | rfl | rfl <;>
        exact not_space_char hv (by decide)
    have hmf : decide (m = [':']) = false := by
      apply decide_eq_false
      intro hm
      rw [hminv.1, List.takeWhile_cons, hc] at hm
      simp only [if_true] at hm
      have : c = ':' := (List.cons.injEq _ _ _ _ ▸ hm).1
      exact not_space_char hv (by decide) this
    simp only [jsonStep, h1, h2, h3, h4, h, hmf]

/-- In the JSON lexer, when the double-quoted string recognizer matches, the
emitted token's classification is decided by the colon-flag together with the
lookahead past whitespace for `:`. -/
theorem jsonStep_string {s m r : Str} (f : Bool) (h : matchString dquote s = some (m, r)) :
    jsonStep s f =
      (⟨if f = false ∧ startsWith [':'] (r.dropWhile isJsSpace) = true then
          TokenType.property
        else TokenType.string, m⟩, decide (m = [':']), r) := by
  simp only [jsonStep, h]

theorem splitAtCloseComment_none :
    ∀ {s : Str}, ¬(['*', '/'] <:+: s) → splitAtCloseComment s = none
  | [], _ => rfl
  | [c], _ => rfl
  | c :: d :: rest, h => by
    rw [splitAtCloseComment]
    rw [if_neg, splitAtCloseComment_none (fun hi => h (List.infix_cons hi))]
    · rfl
    · rintro ⟨rfl, rfl⟩
      exact h ⟨[], rest, rfl⟩

/-- The JS lexer on a `/*` with no later `*/`: no comment (or any other
multi-character) recognizer matches, so `/` is consumed as a one-character
operator. -/
theorem jsStep_slash_star {rest : Str} (hsplit : splitAtCloseComment rest = none) :
    jsStep ('/' :: '*' :: rest) = (⟨.operator, ['/']⟩, '*' :: rest) := by
  have h1 : matchLineComment ('/' :: '*' :: rest) = none := by simp [matchLineComment]
  have h2 : matchBlockComment ('/' :: '*' :: rest) = none := by
    simp [matchBlockComment, hsplit]
  have h3 : matchString dquote ('/' :: '*' :: rest) = none :=
    matchString_none_head (by decide) _
  have h4 : matchString squote ('/' :: '*' :: rest) = none :=
    matchString_none_head (by decide) _
  have h5 : matchString btick ('/' :: '*' :: rest) = none :=
    matchString_none_head (by decide) _
  have h6 : matchRadix 'x' isHexDigit ('/' :: '*' :: rest) = none := by simp [matchRadix]
  have h7 : matchRadix 'b' isBinDigit ('/' :: '*' :: rest) = none := by simp [matchRadix]
  have h8 : matchRadix 'o' isOctDigit ('/' :: '*' :: rest) = none := by simp [matchRadix]
  have h9 : matchDecimal ('/' :: '*' :: rest) = none := matchDecimal_none_head (by decide) _
  have h10 : matchOps ('/' :: '*' :: rest) = some (['/'], '*' :: rest) := by
    rw [matchOps_head _ (by decide), if_pos (by decide)]
  simp only [jsStep, h1, h2, h3, h4, h5, h6, h7, h8, h9, h10]
  rfl

/-- The JS lexer on a leading `*`: only the one-character operator rule
matches. -/
theorem jsStep_star (rest : Str) : jsStep ('*' :: rest) = (⟨.operator, ['*']⟩, rest) := by
  have h1 : matchLineComment ('*' :: rest) = none :=
    matchLineComment_none_head (by decide) _
  have h2 : matchBlockComment ('*' :: rest) = none :=
    matchBlockComment_none_head (by decide) _
  have h3 : matchString dquote ('*' :: rest) = none := matchString_none_head (by decide) _
  have h4 : matchString squote ('*' :: rest) = none := matchString_none_head (by decide) _
  have h5 : matchString btick ('*' :: rest) = none := matchString_none_head (by decide) _
  have h6 : matchRadix 'x' isHexDigit ('*' :: rest) = none :=
    matchRadix_none_head (by decide) _
  have h7 : matchRadix 'b' isBinDigit ('*' :: rest) = none :=
    matchRadix_none_head (by decide) _
  have h8 : matchRadix 'o' isOctDigit ('*' :: rest) = none :=
    matchRadix_none_head (by decide) _
  have h9 : matchDecimal ('*' :: rest) = none := matchDecimal_none_head (by decide) _
  have h10 : matchOps ('*' :: rest) = some (['*'], rest) := by
    rw [matchOps_head _ (by decide), if_pos (by decide)]
  simp only [jsStep, h1, h2, h3, h4, h5, h6, h7, h8, h9, h10]
  rfl

/-- The JS lexer on a quote character (double quote, single quote or
backquote) opening an unterminated string literal: no recognizer matches, so
the quote is consumed by the single-character plain fallback. -/
theorem jsStep_quote {q : Char} (hq : q = dquote ∨ q = squote ∨ q = btick) {rest : Str}
    (hscan : scanStringBody q rest = none) :
    jsStep (q :: rest) = (⟨.plain, [q]⟩, rest) := by
  have h3 : matchString dquote (q :: rest) = none := by
    rcases hq with rfl | rfl | rfl
    · simp [matchString, hscan]
    · exact matchString_none_head (by decide) _
    · exact matchString_none_head (by decide) _
  have h4 : matchString squote (q :: rest) = none := by
    rcases hq with rfl | rfl | rfl
    · exact matchString_none_head (by decide) _
    · simp [matchString, hscan]
    · exact matchString_none_head (by decide) _
  have h5 : matchString btick (q :: rest) = none := by
    rcases hq with rfl | rfl | rfl
    · exact matchString_none_head (by decide) _
    · exact matchString_none_head (by decide) _
    · simp [matchString, hscan]
  have h1 : matchLineComment (q :: rest) = none :=
    matchLineComment_none_head (by rcases hq with rfl | rfl | rfl <;> decide) _
  have h2 : matchBlockComment (q :: rest) = none :=
    matchBlockComment_none_head (by rcases hq with rfl | rfl | rfl <;> decide) _
  have h6 : matchRadix 'x' isHexDigit (q :: rest) = none :=
    matchRadix_none_head (by rcases hq with rfl | rfl | rfl <;> decide) _
  have h7 : matchRadix 'b' isBinDigit (q :: rest) = none :=
    matchRadix_none_head (by rcases hq with rfl | rfl | rfl <;> decide) _
  have h8 : matchRadix 'o' isOctDigit (q :: rest) = none :=
    matchRadix_none_head (by rcases hq with rfl | rfl | rfl <;> decide) _
  have h9 : matchDecimal (q :: rest) = none :=
    matchDecimal_none_head (by rcases hq with rfl | rfl | rfl <;> decide) _
  have h10 : matchOps (q :: rest) = none := by
    rw [matchOps_head _ (by rcases hq with rfl | rfl | rfl <;> decide),
      if_neg (by rcases hq with rfl | rfl | rfl <;> decide)]
  have h11 : matchCharOf jsPunctChars (q :: rest) = none :=
    matchCharOf_none (by rcases hq with rfl | rfl | rfl <;> decide) _
  have h12 : matchIdent (q :: rest) = none :=
    matchIdent_none_head (by rcases hq with rfl | rfl | rfl <;> decide) _
  have h13 : matchWhitespace (q :: rest) = none :=
    matchWhitespace_none_head (by rcases hq with rfl | rfl | rfl <;> decide) _
  simp only [jsStep, h1, h2, h3, h4, h5, h6, h7, h8, h9, h10, h11, h12, h13]

/-- The dispatcher on an unrecognised language tag. -/
theorem tokenize_unknown {lang : Str} (code : Str) (h : lang ∉ supportedLanguages) :
    tokenize code lang = [⟨.plain, code⟩] := by
  have h1 : ¬(lang = "typescript".toList ∨ lang = "javascript".toList) := by
    rintro (rfl | rfl) <;> exact h (by simp [supportedLanguages])
  have h2 : lang ≠ "html".toList := by
    rintro rfl; exact h (by simp [supportedLanguages])
  have h3 : lang ≠ "json".toList := by
    rintro rfl; exact h (by simp [supportedLanguages])
  rw [tokenize, if_neg h1, if_neg h2, if_neg h3]

/-! ## The claims -/

/-- C1 (amended).  Losslessness: concatenating every emitted token's text in
order reproduces the source exactly, for the JS lexer, the data (JSON) lexer
and the unknown-tag pass-through on every input; for the markup (HTML) lexer
it holds on every input in which no whitespace character is immediately
followed by `=` (the attribute-name rule consumes such whitespace without
re-emitting it). -/
theorem c1_losslessness :
    (∀ s : Str, joinTexts (tokenizeJS s) = s) ∧
    (∀ s : Str, joinTexts (tokenizeJSON s) = s) ∧
    (∀ (code lang : Str), lang ∉ supportedLanguages →
      joinTexts (tokenize code lang) = code) ∧
    (∀ s : Str, hasWsEq s = false → joinTexts (tokenizeHTML s) = s) := by
  refine ⟨tokenizeJS_join, tokenizeJSON_join, ?_, tokenizeHTML_join⟩
  intro code lang h
  rw [tokenize_unknown code h]
  simp [joinTexts]

/-- C1, counterexample to the claim as stated: on the markup-lexer input
`a =` the attribute-name rule consumes the space between `a` and `=` but
emits only `a` and `=`, so the concatenation of the emitted token texts is
`a=`, not `a =`. -/
theorem c1_counterexample :
    joinTexts (tokenizeHTML ['a', ' ', '=']) ≠ ['a', ' ', '='] := by decide

/-- C1, witness for the amended claim at concrete inputs. -/
theorem c1_losslessness_witness :
    joinTexts (tokenizeJS ['a']) = ['a'] ∧ joinTexts (tokenizeJSON ['1']) = ['1'] ∧
      (['p', 'y'] : Str) ∉ supportedLanguages ∧
      joinTexts (tokenize ['h', 'i'] ['p', 'y']) = ['h', 'i'] ∧
      hasWsEq ['<', 'a', '>'] = false ∧
      joinTexts (tokenizeHTML ['<', 'a', '>']) = ['<', 'a', '>'] :=
  ⟨c1_losslessness.1 ['a'], c1_losslessness.2.1 ['1'], by decide,
    c1_losslessness.2.2.1 _ _ (by decide), by decide,
    c1_losslessness.2.2.2 _ (by decide)⟩

/-- C2 (amended).  On `<input type="email" required>` the markup lexer emits
punctuation `<`, tag-name `input`, attribute-name `type`, operator `=` and
the string `"email"` with the quotes included in its text — but the bare
attribute `required` is not recognised as an attribute name: the trailing
`required>` falls into the plain-text fallback and is emitted as one plain
token. -/
theorem c2_markup_tokens :
    tokenizeHTML ['<', 'i', 'n', 'p', 'u', 't', ' ', 't', 'y', 'p', 'e', '=', dquote,
        'e', 'm', 'a', 'i', 'l', dquote, ' ', 'r', 'e', 'q', 'u', 'i', 'r', 'e', 'd', '>'] =
      [⟨.punctuation, ['<']⟩, ⟨.tag, ['i', 'n', 'p', 'u', 't']⟩, ⟨.plain, [' ']⟩,
        ⟨.attr, ['t', 'y', 'p', 'e']⟩, ⟨.operator, ['=']⟩,
        ⟨.string, [dquote, 'e', 'm', 'a', 'i', 'l', dquote]⟩, ⟨.plain, [' ']⟩,
        ⟨.plain, ['r', 'e', 'q', 'u', 'i', 'r', 'e', 'd', '>']⟩] := by decide

/-- C2, counterexample to the claim as stated: the token stream for
`<input type="email" required>` contains no attribute-name token `required`
(the claim asserts a bare attribute-name token for it). -/
theorem c2_counterexample :
    ¬∃ t ∈ tokenizeHTML ['<', 'i', 'n', 'p', 'u', 't', ' ', 't', 'y', 'p', 'e', '=',
        dquote, 'e', 'm', 'a', 'i', 'l', dquote, ' ', 'r', 'e', 'q', 'u', 'i', 'r', 'e',
        'd', '>'],
      t.type = TokenType.attr ∧ t.content = ['r', 'e', 'q', 'u', 'i', 'r', 'e', 'd'] := by
  decide

/-- C3 (amended).  In the data lexer a double-quoted string token is
classified as property-name iff the colon-flag is false AND the next
non-whitespace character after it is `:` — the decision does depend on the
colon-flag, not only on the lookahead.  On `{"a": "b"}` the token for `"a"`
is property-name and the token for `"b"` is string, as the claim states. -/
theorem c3_property_classification :
    (∀ (s : Str) (f : Bool) (m r : Str), matchString dquote s = some (m, r) →
      ((jsonStep s f).1.type = TokenType.property ↔
        (f = false ∧ startsWith [':'] (r.dropWhile isJsSpace) = true))) ∧
    tokenizeJSON ['\x7b', dquote, 'a', dquote, ':', ' ', dquote, 'b', dquote, '\x7d'] =
      [⟨.punctuation, ['\x7b']⟩, ⟨.property, [dquote, 'a', dquote]⟩,
        ⟨.punctuation, [':']⟩, ⟨.plain, [' ']⟩, ⟨.string, [dquote, 'b', dquote]⟩,
        ⟨.punctuation, ['\x7d']⟩] := by
  constructor
  · intro s f m r h
    rw [jsonStep_string f h]
    by_cases hc : f = false ∧ startsWith [':'] (r.dropWhile isJsSpace) = true
    · simp [hc]
    · simp only [if_neg hc]
      simp [hc]
  · decide

/-- C3, counterexample to the claim as stated: on input `:"a":` the string
`"a"` is immediately followed by `:` (so the claimed lookahead-only rule
would classify it property-name), but because the preceding token was a
colon the lexer classifies it as a plain string. -/
theorem c3_counterexample :
    tokenizeJSON [':', dquote, 'a', dquote, ':'] =
      [⟨.punctuation, [':']⟩, ⟨.string, [dquote, 'a', dquote]⟩,
        ⟨.punctuation, [':']⟩] := by decide

/-- C3, witness for the amended claim at a concrete input. -/
theorem c3_property_classification_witness :
    matchString dquote [dquote, 'a', dquote, ':'] = some ([dquote, 'a', dquote], [':']) ∧
      ((jsonStep [dquote, 'a', dquote, ':'] false).1.type = TokenType.property ↔
        (false = false ∧ startsWith [':'] (([':'] : Str).dropWhile isJsSpace) = true)) :=
  ⟨by decide, c3_property_classification.1 [dquote, 'a', dquote, ':'] false
    [dquote, 'a', dquote] [':'] (by decide)⟩

/-- C4.  Totality and termination: on every non-empty input each of the
three lexer steps consumes at least one character (the rest is strictly
shorter), and therefore the fuelled loops are independent of any
sufficiently large fuel — the loops always complete within `s.length`
iterations and return a token list. -/
theorem c4_termination :
    ∀ s : Str,
      (s ≠ [] →
        (jsStep s).2.length < s.length ∧ (htmlStep s).2.length < s.length ∧
          ∀ f, ((jsonStep s f).2.2).length < s.length) ∧
      (∀ fuel, s.length ≤ fuel →
        tokenizeJSAux fuel s = tokenizeJS s ∧ tokenizeHTMLAux fuel s = tokenizeHTML s ∧
          ∀ f, tokenizeJSONAux fuel s f = tokenizeJSONAux s.length s f) :=
  fun s =>
    ⟨fun h => ⟨jsStep_progress s h, htmlStep_progress s h, fun f => jsonStep_progress s h f⟩,
     fun fuel hf => ⟨tokenizeJSAux_eq fuel s hf, tokenizeHTMLAux_eq fuel s hf,
       fun f => tokenizeJSONAux_eq fuel s f hf⟩⟩

/-- C4, witness at the malformed input `/* ` (an unterminated block
comment). -/
theorem c4_termination_witness :
    (jsStep ['/', '*', ' ']).2.length < (['/', '*', ' '] : Str).length ∧
      tokenizeJSAux 7 ['/', '*', ' '] = tokenizeJS ['/', '*', ' '] :=
  ⟨((c4_termination ['/', '*', ' ']).1 (by decide)).1,
    ((c4_termination ['/', '*', ' ']).2 7 (by decide)).1⟩

/-- C5.  Line segmentation round-trip: for every token list, the number of
line groups is the number of newlines in the concatenated text plus one,
every fragment keeps the kind (and a piece of the text) of a token it came
from, and joining the groups' texts with a newline between consecutive
groups reconstructs the concatenated input text exactly. -/
theorem c5_line_segmentation :
    ∀ ts : List Token,
      (toLines ts).length = (joinTexts ts).count '\n' + 1 ∧
      (∀ g ∈ toLines ts, ∀ x ∈ g, ∃ t ∈ ts, x.type = t.type ∧ x.content <:+: t.content) ∧
      joinNL ((toLines ts).map joinTexts) = joinTexts ts :=
  fun ts => ⟨toLines_length ts, toLines_mem ts, toLines_join ts⟩

/-- C5, witness at a concrete token list containing a token with an internal
newline. -/
theorem c5_line_segmentation_witness :
    (toLines [⟨.comment, ['a', '\n', 'b']⟩, ⟨.string, ['c']⟩]).length =
        (joinTexts [⟨.comment, ['a', '\n', 'b']⟩, ⟨.string, ['c']⟩]).count '\n' + 1 ∧
      (∃ t ∈ [(⟨.comment, ['a', '\n', 'b']⟩ : Token), ⟨.string, ['c']⟩],
        (⟨.comment, ['a']⟩ : Token).type = t.type ∧ ['a'] <:+: t.content) ∧
      joinNL ((toLines [⟨.comment, ['a', '\n', 'b']⟩, ⟨.string, ['c']⟩]).map joinTexts) =
        joinTexts [⟨.comment, ['a', '\n', 'b']⟩, ⟨.string, ['c']⟩] := by
  have h := c5_line_segmentation [⟨.comment, ['a', '\n', 'b']⟩, ⟨.string, ['c']⟩]
  exact ⟨h.1, h.2.1 [⟨.comment, ['a']⟩] (by decide) ⟨.comment, ['a']⟩ (by decide), h.2.2⟩

/-- C6.  Unknown-language fallback: dispatching with a language tag that is
not one of the four recognised tags returns exactly one token, of kind
plain, whose text is the entire input. -/
theorem c6_unknown_language :
    ∀ (code lang : Str), lang ∉ supportedLanguages →
      tokenize code lang = [⟨.plain, code⟩] :=
  fun code _ h => tokenize_unknown code h

/-- C6, witness at a concrete unrecognised tag. -/
theorem c6_unknown_language_witness :
    (['p', 'y'] : Str) ∉ supportedLanguages ∧
      tokenize ['h', 'i'] ['p', 'y'] = [⟨.plain, ['h', 'i']⟩] :=
  ⟨by decide, c6_unknown_language ['h', 'i'] ['p', 'y'] (by decide)⟩

/-- C7 (amended).  In the data lexer, when the whitespace recognizer fires
the colon-flag is set to `false` regardless of its previous value — the flag
is NOT left unchanged (it is cleared whenever it was true). -/
theorem c7_whitespace_flag :
    ∀ (s : Str) (f : Bool) (m r : Str), matchWhitespace s = some (m, r) →
      jsonStep s f = (⟨.plain, m⟩, false, r) :=
  fun _ f _ _ h => jsonStep_whitespace f h

/-- C7, counterexample to the claim as stated: consuming the whitespace run
`" "` in the state where the colon-flag is true yields the flag false, not
true. -/
theorem c7_counterexample :
    (jsonStep [' '] true).1 = ⟨.plain, [' ']⟩ ∧ (jsonStep [' '] true).2.1 ≠ true := by
  decide

/-- C7, witness for the amended claim at a concrete input and state. -/
theorem c7_whitespace_flag_witness :
    matchWhitespace [' '] = some ([' '], []) ∧
      jsonStep [' '] true = (⟨.plain, [' ']⟩, false, []) :=
  ⟨by decide, c7_whitespace_flag [' '] true [' '] [] (by decide)⟩

/-- C8.  On `const x = 1;` the JS lexer classifies `const` as keyword, `x`
as plain identifier, `1` as number, `=` as operator and `;` as punctuation,
and no emitted token has empty text. -/
theorem c8_keyword_classification :
    tokenizeJS ['c', 'o', 'n', 's', 't', ' ', 'x', ' ', '=', ' ', '1', ';'] =
      [⟨.keyword, ['c', 'o', 'n', 's', 't']⟩, ⟨.plain, [' ']⟩, ⟨.plain, ['x']⟩,
        ⟨.plain, [' ']⟩, ⟨.operator, ['=']⟩, ⟨.plain, [' ']⟩, ⟨.number, ['1']⟩,
        ⟨.punctuation, [';']⟩] ∧
      ∀ t ∈ tokenizeJS ['c', 'o', 'n', 's', 't', ' ', 'x', ' ', '=', ' ', '1', ';'],
        t.content ≠ [] := by decide

/-- C9.  Non-empty token invariant: every token produced by any of the three
lexers has non-empty text, on every input. -/
theorem c9_nonempty_tokens :
    ∀ s : Str,
      (∀ t ∈ tokenizeJS s, t.content ≠ []) ∧ (∀ t ∈ tokenizeHTML s, t.content ≠ []) ∧
        ∀ t ∈ tokenizeJSON s, t.content ≠ [] :=
  fun s =>
    ⟨fun t ht => tokenizeJSAux_nonempty s.length s t ht,
     fun t ht => tokenizeHTMLAux_nonempty s.length s t ht,
     fun t ht => tokenizeJSONAux_nonempty s.length s false t ht⟩

/-- C9, witness at a concrete input and token. -/
theorem c9_nonempty_tokens_witness :
    (⟨.plain, ['a']⟩ : Token) ∈ tokenizeJS ['a'] ∧
      (⟨TokenType.plain, ['a']⟩ : Token).content ≠ [] :=
  ⟨by decide, (c9_nonempty_tokens ['a']).1 _ (by decide)⟩

/-- C10.  Unterminated constructs in the JS lexer: a `/*` with no later `*/`
is not consumed as a comment — `/` and `*` are emitted as one-character
operator tokens and the rest is tokenized normally; an opening quote (any of
the three string delimiters: double quote, single quote or backquote) of an
unterminated string is consumed as a single-character plain fallback token
and the rest is tokenized normally. -/
theorem c10_unterminated :
    (∀ rest : Str, ¬(['*', '/'] <:+: rest) →
      tokenizeJS ('/' :: '*' :: rest) =
        ⟨.operator, ['/']⟩ :: ⟨.operator, ['*']⟩ :: tokenizeJS rest) ∧
    (∀ q : Char, (q = dquote ∨ q = squote ∨ q = btick) →
      ∀ rest : Str, scanStringBody q rest = none →
        tokenizeJS (q :: rest) = ⟨.plain, [q]⟩ :: tokenizeJS rest) := by
  constructor
  · intro rest hni
    have hs1 := jsStep_slash_star (splitAtCloseComment_none hni)
    have hs2 := jsStep_star rest
    simp only [tokenizeJS, List.length_cons, tokenizeJSAux, hs1, hs2]
  · intro q hq rest hscan
    have hs1 := jsStep_quote hq hscan
    simp only [tokenizeJS, List.length_cons, tokenizeJSAux, hs1]

/-- C10, witness at concrete unterminated inputs: the comment `/* x` and one
unterminated string for each of the three delimiters. -/
theorem c10_unterminated_witness :
    (¬(['*', '/'] <:+: [' ', 'x']) ∧
      tokenizeJS ('/' :: '*' :: [' ', 'x']) =
        ⟨.operator, ['/']⟩ :: ⟨.operator, ['*']⟩ :: tokenizeJS [' ', 'x']) ∧
      (scanStringBody dquote ['a'] = none ∧
        tokenizeJS (dquote :: ['a']) = ⟨.plain, [dquote]⟩ :: tokenizeJS ['a']) ∧
      (scanStringBody squote ['b'] = none ∧
        tokenizeJS (squote :: ['b']) = ⟨.plain, [squote]⟩ :: tokenizeJS ['b']) ∧
      (scanStringBody btick ['c'] = none ∧
        tokenizeJS (btick :: ['c']) = ⟨.plain, [btick]⟩ :: tokenizeJS ['c']) :=
  ⟨⟨by decide, c10_unterminated.1 [' ', 'x'] (by decide)⟩,
    ⟨by decide, c10_unterminated.2 dquote (Or.inl rfl) ['a'] (by decide)⟩,
    ⟨by decide, c10_unterminated.2 squote (Or.inr (Or.inl rfl)) ['b'] (by decide)⟩,
    ⟨by decide, c10_unterminated.2 btick (Or.inr (Or.inr rfl)) ['c'] (by decide)⟩⟩

end CodeBlock
